import Mathlib

/-!
Verification development for the qlbridge expression-parser core:
the token pager, the recursive-descent expression parser (`expr` package,
Pratt-style grammar O→A→C→P→M→F→v), and the dialect writers.

Modelling conventions (shallow embedding of the Go source):

* Machine integers are modelled as `Int`/`Nat` (no overflow is relevant here:
  the only arithmetic is cursor movement and list lengths).
* A Go `panic` raised by the parser is modelled as `Except.error`; since the
  source never installs a `recover` handler inside `BuildTree`, `Except.error`
  propagating out of `buildTree` corresponds to a panic escaping `BuildTree`.
* The lexer is an external collaborator (not part of this repository's core):
  it is modelled as the list of tokens it will yield; once the list is
  exhausted it keeps yielding the EOF token, which matches the lexer contract
  (EOF terminates every stream and is repeated at the end).
* Go slice indexing `xs[i]` is modelled as an `Option`-returning lookup `idx`;
  `none` corresponds to an out-of-range panic.
* Source positions are kept (field `Pos` of tokens and nodes).
-/

namespace QlBridge

/-- Token types produced by the lexer, the closed enum from the lexer
contract used by the parser and the claims (`lex.TokenXxx` in the source). -/
inductive TokenType where
  | tEOF | tEOS | tComma | tLeftParenthesis | tRightParenthesis
  | tPlus | tMinus | tStar | tMultiply | tDivide | tModulus
  | tEqual | tEqualEqual | tNE | tGT | tGE | tLT | tLE | tLike
  | tIN | tBetween | tAnd | tOr | tLogicAnd | tLogicOr | tNegate
  | tInteger | tFloat | tValue | tIdentity | tUdfExpr
  | tSelect | tFrom | tAs | tLimit | tIf | tCommentSingleLine
  deriving DecidableEq, Repr

/-- A lexical token: type tag `T`, textual value `V`, byte position `Pos`
(`lex.Token` in the source, the fields the parser reads). -/
structure Token where
  T : TokenType
  V : String
  Pos : Nat
  deriving DecidableEq, Repr

/-- The token the lexer yields at (and beyond) the end of input. -/
def eofTok : Token := ⟨.tEOF, "", 0⟩

/-- Go slice indexing `l[i]` with an `Int` index; `none` models the
out-of-range panic. -/
def idx (l : List Token) (i : Int) : Option Token :=
  if i < 0 then none else l.get? i.toNat

/-- State of `LexTokenPager` (source `part_000` lines 40-46): `done` is the
EOF flag, `tokens` the buffered token slice, `cursor` the position (starts at
-1), `stream` the tokens the lexer has not yielded yet. -/
structure LexTokenPager where
  done : Bool
  tokens : List Token
  cursor : Int
  stream : List Token
  deriving DecidableEq, Repr

/-- `NewLexTokenPager`: fresh pager over a lexer, cursor at -1. -/
def newLexTokenPager (s : List Token) : LexTokenPager :=
  { done := false, tokens := [], cursor := -1, stream := s }

/-- The pull phase of `Next()` (lines 58-65): if not `done`, fetch one token
from the lexer, set `done` when it is EOF, and append it to the buffer. -/
def pagerPull (m : LexTokenPager) : LexTokenPager :=
  if m.done then m
  else
    let tok := m.stream.headD eofTok
    { m with
      done := decide (tok.T = .tEOF)
      tokens := m.tokens ++ [tok]
      stream := m.stream.drop 1 }

/-- The cursor-advance phase of `Next()` (lines 66-69): increment the cursor
when another buffered token exists. -/
def pagerAdvance (m : LexTokenPager) : LexTokenPager :=
  if m.cursor + 1 < (m.tokens.length : Int) then { m with cursor := m.cursor + 1 } else m

/-- `LexTokenPager.Next` (lines 57-71): pull if not done, advance the cursor
when possible, and return `tokens[cursor]`. `none` models the indexing panic. -/
def pnext (m : LexTokenPager) : Option (Token × LexTokenPager) :=
  let m2 := pagerAdvance (pagerPull m)
  (idx m2.tokens m2.cursor).map (fun t => (t, m2))

/-- `LexTokenPager.Cur` (lines 72-77): if the cursor never advanced, prime
with `Next()`, else return `tokens[cursor]`. -/
def pcur (m : LexTokenPager) : Option (Token × LexTokenPager) :=
  if m.cursor = -1 then pnext m
  else (idx m.tokens m.cursor).map (fun t => (t, m))

/-- `LexTokenPager.Backup` (lines 86-92): step the cursor back, bounded at 0. -/
def pbackup (m : LexTokenPager) : LexTokenPager :=
  if 0 < m.cursor then { m with cursor := m.cursor - 1 } else m

/-- `LexTokenPager.Peek` (lines 95-104): if the token one ahead is not
buffered yet, call `Next()` and then decrement the cursor; finally return
`tokens[cursor+1]`. A failing `Next()` (out-of-range panic) propagates. -/
def ppeek (m : LexTokenPager) : Option (Token × LexTokenPager) :=
  if (m.tokens.length : Int) ≤ m.cursor + 1 then
    (pnext m).bind (fun p =>
      (idx p.2.tokens (p.2.cursor - 1 + 1)).map
        (fun t => (t, { done := p.2.done, tokens := p.2.tokens,
                        cursor := p.2.cursor - 1, stream := p.2.stream })))
  else (idx m.tokens (m.cursor + 1)).map (fun t => (t, m))

/-- The value `Cur()` would return on `m` (priming included), without the
state change. -/
def curVal (m : LexTokenPager) : Option Token :=
  (pcur m).map Prod.fst

/-- One successful pager operation (`Next`, `Cur`, `Peek` or `Backup`). -/
inductive PagerStep : LexTokenPager → LexTokenPager → Prop where
  | nextStep (m : LexTokenPager) (t : Token) (m' : LexTokenPager) :
      pnext m = some (t, m') → PagerStep m m'
  | curStep (m : LexTokenPager) (t : Token) (m' : LexTokenPager) :
      pcur m = some (t, m') → PagerStep m m'
  | peekStep (m : LexTokenPager) (t : Token) (m' : LexTokenPager) :
      ppeek m = some (t, m') → PagerStep m m'
  | backupStep (m : LexTokenPager) : PagerStep m (pbackup m)

/-- Pager states reachable from a fresh pager by any call sequence. -/
inductive Reachable : LexTokenPager → Prop where
  | init (s : List Token) : Reachable (newLexTokenPager s)
  | step (m m' : LexTokenPager) : Reachable m → PagerStep m m' → Reachable m'

/-- The pager invariant: the cursor stays in `[-1, len tokens - 1]` (when the
buffer is empty this forces `cursor = -1`), and `done` holds exactly when an
EOF token has been buffered. -/
def PagerInv (m : LexTokenPager) : Prop :=
  -1 ≤ m.cursor ∧ m.cursor < (m.tokens.length : Int) ∧
    (m.done = m.tokens.any (fun t => decide (t.T = .tEOF)))

theorem idx_eq_some (l : List Token) (i : Int) (h0 : 0 ≤ i) (h1 : i < (l.length : Int)) :
    ∃ t, idx l i = some t := by
  have hn : i.toNat < l.length := by omega
  cases hg : l.get? i.toNat with
  | none =>
    rw [List.get?_eq_none] at hg
    omega
  | some t =>
    refine ⟨t, ?_⟩
    unfold idx
    rw [if_neg (not_lt.mpr h0)]
    exact hg

theorem idx_mem {l : List Token} {i : Int} {t : Token} (h : idx l i = some t) : t ∈ l := by
  unfold idx at h
  split at h
  · exact absurd h (by simp)
  · exact List.get?_mem h

theorem pagerPull_done {m : LexTokenPager} (h : m.done = true) : pagerPull m = m := by
  simp [pagerPull, h]

theorem pagerPull_not_done {m : LexTokenPager} (h : m.done = false) :
    pagerPull m =
      { m with
        done := decide ((m.stream.headD eofTok).T = .tEOF)
        tokens := m.tokens ++ [m.stream.headD eofTok]
        stream := m.stream.drop 1 } := by
  simp [pagerPull, h]

/-- If `done` holds, the invariant forces the buffer to be non-empty. -/
theorem tokens_ne_nil_of_done {m : LexTokenPager} (h : PagerInv m) (hd : m.done = true) :
    m.tokens ≠ [] := by
  intro he
  obtain ⟨-, -, h3⟩ := h
  rw [he, hd] at h3
  simp at h3

/-- `Next()` never fails on an invariant state, preserves the invariant,
returns a buffered token, and — once `done` — pulls nothing from the lexer. -/
theorem pnext_spec (m : LexTokenPager) (h : PagerInv m) :
    ∃ t m', pnext m = some (t, m') ∧ PagerInv m' ∧ t ∈ m'.tokens ∧
      (m.done = true →
        m'.tokens = m.tokens ∧ m'.stream = m.stream ∧ m'.done = true) := by
  obtain ⟨h1, h2, h3⟩ := h
  by_cases hd : m.done = true
  · have hne : m.tokens ≠ [] := tokens_ne_nil_of_done ⟨h1, h2, h3⟩ hd
    have hlen : 0 < (m.tokens.length : Int) := by
      have := List.length_pos.mpr hne
      omega
    have hpn : pnext m = (idx (pagerAdvance m).tokens (pagerAdvance m).cursor).map
        (fun t => (t, pagerAdvance m)) := by
      rw [pnext, pagerPull_done hd]
    by_cases hc : m.cursor + 1 < (m.tokens.length : Int)
    · have hadv : pagerAdvance m = { m with cursor := m.cursor + 1 } := by
        simp [pagerAdvance, hc]
      obtain ⟨t, ht⟩ := idx_eq_some m.tokens (m.cursor + 1) (by omega) hc
      refine ⟨t, { m with cursor := m.cursor + 1 }, ?_,
        ⟨by show -1 ≤ m.cursor + 1; omega, hc, h3⟩,
        idx_mem ht, fun _ => ⟨rfl, rfl, hd⟩⟩
      rw [hpn, hadv]
      simp only [idx] at ht ⊢
      rw [ht]
      rfl
    · have hadv : pagerAdvance m = m := by
        simp only [pagerAdvance, if_neg hc]
      have hc0 : 0 ≤ m.cursor := by omega
      obtain ⟨t, ht⟩ := idx_eq_some m.tokens m.cursor hc0 h2
      refine ⟨t, m, ?_, ⟨h1, h2, h3⟩, idx_mem ht, fun _ => ⟨rfl, rfl, hd⟩⟩
      rw [hpn, hadv, ht]
      rfl
  · have hdf : m.done = false := by
      cases hmd : m.done
      · rfl
      · exact absurd hmd hd
    have hc : m.cursor + 1 < ((m.tokens ++ [m.stream.headD eofTok]).length : Int) := by
      simp only [List.length_append, List.length_singleton]
      push_cast
      omega
    have hadv : pagerAdvance (pagerPull m) =
        { m with
          done := decide ((m.stream.headD eofTok).T = .tEOF)
          tokens := m.tokens ++ [m.stream.headD eofTok]
          stream := m.stream.drop 1
          cursor := m.cursor + 1 } := by
      rw [pagerPull_not_done hdf]
      simp only [pagerAdvance]
      rw [if_pos (by exact hc)]
    have hpn : pnext m = (idx (m.tokens ++ [m.stream.headD eofTok]) (m.cursor + 1)).map
        (fun t =>
          (t, { m with
                done := decide ((m.stream.headD eofTok).T = .tEOF)
                tokens := m.tokens ++ [m.stream.headD eofTok]
                stream := m.stream.drop 1
                cursor := m.cursor + 1 })) := by
      rw [pnext, hadv]
    obtain ⟨t, ht⟩ := idx_eq_some (m.tokens ++ [m.stream.headD eofTok]) (m.cursor + 1)
      (by omega) hc
    refine ⟨t, { m with
          done := decide ((m.stream.headD eofTok).T = .tEOF)
          tokens := m.tokens ++ [m.stream.headD eofTok]
          stream := m.stream.drop 1
          cursor := m.cursor + 1 }, ?_,
      ⟨by show -1 ≤ m.cursor + 1; omega, hc, ?_⟩, ?_, ?_⟩
    · rw [hpn, ht]
      rfl
    · rw [hdf] at h3
      simp only [List.any_append, ← h3]
      simp
    · exact idx_mem ht
    · intro hcon
      rw [hcon] at hdf
      exact absurd hdf (by simp)

/-- The pager state right after pulling one token from the lexer, the cursor
untouched. -/
def pulled (m : LexTokenPager) : LexTokenPager :=
  { done := decide ((m.stream.headD eofTok).T = .tEOF)
    tokens := m.tokens ++ [m.stream.headD eofTok]
    cursor := m.cursor
    stream := m.stream.drop 1 }

theorem pnext_not_done_eq {m : LexTokenPager} (hd : m.done = false)
    (h2 : m.cursor < (m.tokens.length : Int)) :
    pnext m = (idx (m.tokens ++ [m.stream.headD eofTok]) (m.cursor + 1)).map
      (fun t => (t, { done := decide ((m.stream.headD eofTok).T = .tEOF)
                      tokens := m.tokens ++ [m.stream.headD eofTok]
                      cursor := m.cursor + 1
                      stream := m.stream.drop 1 })) := by
  have hc : m.cursor + 1 < ((m.tokens ++ [m.stream.headD eofTok]).length : Int) := by
    simp only [List.length_append, List.length_singleton]
    push_cast
    omega
  rw [pnext, pagerPull_not_done hd]
  simp only [pagerAdvance]
  rw [if_pos (by exact hc)]

theorem pnext_done_adv_eq {m : LexTokenPager} (hd : m.done = true)
    (hc : m.cursor + 1 < (m.tokens.length : Int)) :
    pnext m = (idx m.tokens (m.cursor + 1)).map
      (fun t => (t, { m with cursor := m.cursor + 1 })) := by
  rw [pnext, pagerPull_done hd]
  simp only [pagerAdvance]
  rw [if_pos hc]

theorem pnext_done_noadv_eq {m : LexTokenPager} (hd : m.done = true)
    (hc : ¬ m.cursor + 1 < (m.tokens.length : Int)) :
    pnext m = (idx m.tokens m.cursor).map (fun t => (t, m)) := by
  rw [pnext, pagerPull_done hd]
  simp only [pagerAdvance]
  rw [if_neg hc]

/-- `Cur()` never fails on an invariant state and preserves the invariant. -/
theorem pcur_spec (m : LexTokenPager) (h : PagerInv m) :
    ∃ t m', pcur m = some (t, m') ∧ PagerInv m' := by
  by_cases hm : m.cursor = -1
  · obtain ⟨t, m', hn, hi, -, -⟩ := pnext_spec m h
    exact ⟨t, m', by rw [pcur, if_pos hm]; exact hn, hi⟩
  · obtain ⟨h1, h2, h3⟩ := h
    obtain ⟨t, ht⟩ := idx_eq_some m.tokens m.cursor (by omega) h2
    exact ⟨t, m, by rw [pcur, if_neg hm, ht]; rfl, h1, h2, h3⟩

/-- `Backup()` preserves the invariant. -/
theorem pbackup_inv (m : LexTokenPager) (h : PagerInv m) : PagerInv (pbackup m) := by
  obtain ⟨h1, h2, h3⟩ := h
  unfold pbackup
  split
  · refine ⟨?_, ?_, h3⟩
    · show -1 ≤ m.cursor - 1
      omega
    · show m.cursor - 1 < (m.tokens.length : Int)
      omega
  · exact ⟨h1, h2, h3⟩

/-- `Peek()` when the token one ahead is already buffered: no state change. -/
theorem ppeek_buffered {m : LexTokenPager} (h1 : -1 ≤ m.cursor)
    (hc : m.cursor + 1 < (m.tokens.length : Int)) :
    ∃ t, idx m.tokens (m.cursor + 1) = some t ∧ ppeek m = some (t, m) := by
  obtain ⟨t, ht⟩ := idx_eq_some m.tokens (m.cursor + 1) (by omega) hc
  refine ⟨t, ht, ?_⟩
  rw [ppeek, if_neg (by omega), ht]
  rfl

/-- `Peek()` when it has to pull: the lexer is consulted once, the cursor is
restored, and the pulled token is returned. -/
theorem ppeek_pull {m : LexTokenPager} (hd : m.done = false)
    (hc : (m.tokens.length : Int) ≤ m.cursor + 1) (h : PagerInv m) :
    ppeek m = some (m.stream.headD eofTok, pulled m) := by
  obtain ⟨h1, h2, h3⟩ := h
  have hcur : m.cursor + 1 = (m.tokens.length : Int) := by omega
  have hidx : idx (m.tokens ++ [m.stream.headD eofTok]) (m.cursor + 1) =
      some (m.stream.headD eofTok) := by
    unfold idx
    rw [if_neg (by omega)]
    have : (m.cursor + 1).toNat = m.tokens.length := by omega
    rw [this, List.get?_concat_length]
  rw [ppeek, if_pos hc, pnext_not_done_eq hd h2, hidx]
  simp only [Option.map_some', Option.some_bind]
  rw [show m.cursor + 1 - 1 + 1 = m.cursor + 1 from by omega,
    show m.cursor + 1 - 1 = m.cursor from by omega, hidx]
  rfl

/-- `Peek()` at the exhausted end: the pager is `done` and the cursor sits on
the last buffered token; `Peek` returns that token but steps the cursor BACK
one position. -/
theorem ppeek_at_end {m : LexTokenPager} (hd : m.done = true)
    (hc : (m.tokens.length : Int) ≤ m.cursor + 1) (h : PagerInv m) :
    ∃ t, idx m.tokens m.cursor = some t ∧
      ppeek m = some (t, { m with cursor := m.cursor - 1 }) := by
  obtain ⟨h1, h2, h3⟩ := h
  have hne : m.tokens ≠ [] := tokens_ne_nil_of_done ⟨h1, h2, h3⟩ hd
  have hlen : 0 < (m.tokens.length : Int) := by
    have := List.length_pos.mpr hne
    omega
  have hc0 : 0 ≤ m.cursor := by omega
  obtain ⟨t, ht⟩ := idx_eq_some m.tokens m.cursor hc0 h2
  refine ⟨t, ht, ?_⟩
  rw [ppeek, if_pos hc, pnext_done_noadv_eq hd (by omega), ht]
  simp only [Option.map_some', Option.some_bind]
  rw [show m.cursor - 1 + 1 = m.cursor from by omega, ht]
  rfl

/-- `Peek()` never fails on an invariant state and preserves the invariant. -/
theorem ppeek_spec (m : LexTokenPager) (h : PagerInv m) :
    ∃ t m', ppeek m = some (t, m') ∧ PagerInv m' := by
  obtain ⟨h1, h2, h3⟩ := h
  by_cases hc : m.cursor + 1 < (m.tokens.length : Int)
  · obtain ⟨t, -, hp⟩ := ppeek_buffered h1 hc
    exact ⟨t, m, hp, h1, h2, h3⟩
  · cases hmd : m.done with
    | false =>
      refine ⟨m.stream.headD eofTok, pulled m,
        ppeek_pull hmd (by omega) ⟨h1, h2, h3⟩, h1, ?_, ?_⟩
      · show m.cursor < ((m.tokens ++ [m.stream.headD eofTok]).length : Int)
        simp only [List.length_append, List.length_singleton]
        push_cast
        omega
      · show decide ((m.stream.headD eofTok).T = .tEOF) =
          (m.tokens ++ [m.stream.headD eofTok]).any (fun t => decide (t.T = .tEOF))
        rw [List.any_append]
        rw [hmd] at h3
        rw [← h3]
        simp
    | true =>
      obtain ⟨t, -, hp⟩ := ppeek_at_end hmd (by omega) ⟨h1, h2, h3⟩
      have hne : m.tokens ≠ [] := tokens_ne_nil_of_done ⟨h1, h2, h3⟩ hmd
      have hlen : 0 < (m.tokens.length : Int) := by
        have := List.length_pos.mpr hne
        omega
      refine ⟨t, _, hp, ⟨?_, ?_, h3⟩⟩
      · show -1 ≤ m.cursor - 1
        omega
      · show m.cursor - 1 < (m.tokens.length : Int)
        omega

/-- Every pager operation preserves the invariant. -/
theorem pagerStep_inv {m m' : LexTokenPager} (h : PagerInv m) (hs : PagerStep m m') :
    PagerInv m' := by
  cases hs with
  | nextStep t mm he =>
    obtain ⟨t2, m2, he2, hi2, -, -⟩ := pnext_spec m h
    rw [he] at he2
    cases he2
    exact hi2
  | curStep t mm he =>
    obtain ⟨t2, m2, he2, hi2⟩ := pcur_spec m h
    rw [he] at he2
    cases he2
    exact hi2
  | peekStep t mm he =>
    obtain ⟨t2, m2, he2, hi2⟩ := ppeek_spec m h
    rw [he] at he2
    cases he2
    exact hi2
  | backupStep => exact pbackup_inv m h

/-- Every reachable pager state satisfies the invariant. -/
theorem reachable_inv {m : LexTokenPager} (h : Reachable m) : PagerInv m := by
  induction h with
  | init s => exact ⟨by norm_num [newLexTokenPager], by norm_num [newLexTokenPager],
      by simp [newLexTokenPager]⟩
  | step m m' _ hs ih => exact pagerStep_inv ih hs

theorem idx_append_left {l1 l2 : List Token} {i : Int} (h : i < (l1.length : Int)) :
    idx (l1 ++ l2) i = idx l1 i := by
  unfold idx
  split
  · rfl
  · exact List.get?_append (by omega)

/-- C10: on every reachable pager state the invariant holds, each of `Next`,
`Cur`, `Peek` succeeds (no out-of-range access), and once `done`, `Next`
stops pulling from the lexer and returns a buffered token. -/
theorem pager_reachable_safe (m : LexTokenPager) (h : Reachable m) :
    PagerInv m ∧
    (∃ t m', pnext m = some (t, m')) ∧
    (∃ t m', pcur m = some (t, m')) ∧
    (∃ t m', ppeek m = some (t, m')) ∧
    (m.done = true → ∀ t m', pnext m = some (t, m') →
      m'.tokens = m.tokens ∧ m'.stream = m.stream ∧ t ∈ m.tokens) := by
  have hi := reachable_inv h
  refine ⟨hi, ?_, ?_, ?_, ?_⟩
  · obtain ⟨t, m', he, -, -, -⟩ := pnext_spec m hi
    exact ⟨t, m', he⟩
  · obtain ⟨t, m', he, -⟩ := pcur_spec m hi
    exact ⟨t, m', he⟩
  · obtain ⟨t, m', he, -⟩ := ppeek_spec m hi
    exact ⟨t, m', he⟩
  · intro hd t m' he
    obtain ⟨t2, m2, he2, -, hmem, hpres⟩ := pnext_spec m hi
    rw [he] at he2
    cases he2
    obtain ⟨ht, hs, -⟩ := hpres hd
    exact ⟨ht, hs, ht ▸ hmem⟩

/-- Witness for C10 at a concrete reachable state. -/
theorem pager_reachable_safe_witness :
    PagerInv (newLexTokenPager [eofTok]) ∧
    (∃ t m', pnext (newLexTokenPager [eofTok]) = some (t, m')) ∧
    (∃ t m', pcur (newLexTokenPager [eofTok]) = some (t, m')) ∧
    (∃ t m', ppeek (newLexTokenPager [eofTok]) = some (t, m')) ∧
    ((newLexTokenPager [eofTok]).done = true → ∀ t m',
      pnext (newLexTokenPager [eofTok]) = some (t, m') →
      m'.tokens = (newLexTokenPager [eofTok]).tokens ∧
      m'.stream = (newLexTokenPager [eofTok]).stream ∧
      t ∈ (newLexTokenPager [eofTok]).tokens) :=
  pager_reachable_safe (newLexTokenPager [eofTok]) (Reachable.init [eofTok])

/-- A non-EOF token for the C3 counterexample. -/
def c3tokA : Token := ⟨.tIdentity, "a", 0⟩

/-- Fresh pager over the stream `a, EOF`. -/
def c3pager0 : LexTokenPager := newLexTokenPager [c3tokA, eofTok]

/-- State after `Cur()` on `c3pager0`. -/
def c3pager1 : LexTokenPager :=
  { done := false, tokens := [c3tokA], cursor := 0, stream := [eofTok] }

/-- State after a further `Next()`: the EOF is buffered and current. -/
def c3pager2 : LexTokenPager :=
  { done := true, tokens := [c3tokA, eofTok], cursor := 1, stream := [] }

/-- State after a further `Peek()`: the cursor was rewound. -/
def c3pager3 : LexTokenPager :=
  { done := true, tokens := [c3tokA, eofTok], cursor := 0, stream := [] }

/-- C3 counterexample: after `Cur(); Next()` on the stream `a, EOF` the
current token is EOF, but `Peek()` then rewinds the cursor, so `Cur()`
changes from EOF back to `a` — `Peek` does NOT leave `Cur` unchanged at the
end of the token stream. -/
theorem peek_changes_cur_cex :
    pcur c3pager0 = some (c3tokA, c3pager1) ∧
    pnext c3pager1 = some (eofTok, c3pager2) ∧
    curVal c3pager2 = some eofTok ∧
    ppeek c3pager2 = some (eofTok, c3pager3) ∧
    curVal c3pager3 = some c3tokA ∧
    c3tokA ≠ eofTok := by
  decide

/-- C3 (amended): on every reachable pager state, `Peek()` returns the token
one ahead of the final cursor, consecutive `Peek()`s return the same token
with no further state change, and `Peek` leaves the value of `Cur()`
unchanged EXCEPT when the lexer is done and the cursor sits on the last
buffered token with at least one token before it; in the exhausted-end case
`Peek` rewinds the cursor by one. -/
theorem peek_frame_amended (m : LexTokenPager) (h : Reachable m)
    (t : Token) (m' : LexTokenPager) (hp : ppeek m = some (t, m')) :
    idx m'.tokens (m'.cursor + 1) = some t ∧
    ppeek m' = some (t, m') ∧
    (¬(m.done = true ∧ (m.tokens.length : Int) ≤ m.cursor + 1 ∧ 1 ≤ m.cursor) →
      curVal m' = curVal m) ∧
    (m.done = true → (m.tokens.length : Int) ≤ m.cursor + 1 →
      m' = { m with cursor := m.cursor - 1 }) := by
  have hi := reachable_inv h
  obtain ⟨h1, h2, h3⟩ := hi
  by_cases hc : m.cursor + 1 < (m.tokens.length : Int)
  · -- the token one ahead is buffered: no state change at all
    obtain ⟨t0, ht0, hp0⟩ := ppeek_buffered h1 hc
    rw [hp] at hp0
    cases hp0
    refine ⟨ht0, hp, fun _ => rfl, fun hd hle => absurd hc (by omega)⟩
  · cases hmd : m.done with
    | false =>
      have hp0 := ppeek_pull hmd (by omega) ⟨h1, h2, h3⟩
      rw [hp] at hp0
      cases hp0
      have hidx : idx (m.tokens ++ [m.stream.headD eofTok]) (m.cursor + 1) =
          some (m.stream.headD eofTok) := by
        unfold idx
        rw [if_neg (by omega)]
        have hcn : (m.cursor + 1).toNat = m.tokens.length := by omega
        rw [hcn, List.get?_concat_length]
      have hone : idx (pulled m).tokens ((pulled m).cursor + 1) =
          some (m.stream.headD eofTok) := hidx
      refine ⟨hone, ?_, ?_, fun hd => absurd hd (by simp)⟩
      · -- second peek: now buffered
        have hlt : (pulled m).cursor + 1 < ((pulled m).tokens.length : Int) := by
          show m.cursor + 1 < ((m.tokens ++ [m.stream.headD eofTok]).length : Int)
          simp only [List.length_append, List.length_singleton]
          push_cast
          omega
        obtain ⟨t1, ht1, hp1⟩ := ppeek_buffered (by show -1 ≤ m.cursor; omega) hlt
        rw [hone] at ht1
        cases ht1
        exact hp1
      · -- Cur value preserved
        intro _
        by_cases hm1 : m.cursor = -1
        · have hlen0 : m.tokens.length = 0 := by omega
          have htok : m.tokens = [] := List.length_eq_zero.mp hlen0
          have hcm : pcur m = (idx (m.tokens ++ [m.stream.headD eofTok]) (m.cursor + 1)).map
              (fun t => (t, { done := decide ((m.stream.headD eofTok).T = .tEOF)
                              tokens := m.tokens ++ [m.stream.headD eofTok]
                              cursor := m.cursor + 1
                              stream := m.stream.drop 1 })) := by
            rw [pcur, if_pos hm1, pnext_not_done_eq hmd h2]
          have hcm' : curVal m = some (m.stream.headD eofTok) := by
            rw [curVal, hcm, hidx]
            rfl
          have hm'c : (pulled m).cursor = -1 := hm1
          rw [hcm']
          rw [curVal, pcur, if_pos hm'c]
          -- Cur on the pulled state primes with Next; first buffered token is
          -- the pulled one whether or not it was EOF
          by_cases hde : (pulled m).done = true
          · rw [pnext_done_adv_eq hde (by
              show m.cursor + 1 < ((m.tokens ++ [m.stream.headD eofTok]).length : Int)
              simp only [List.length_append, List.length_singleton]
              push_cast
              omega)]
            simp only [pulled]
            rw [hidx]
            rfl
          · have hde' : (pulled m).done = false := by
              cases hq : (pulled m).done
              · rfl
              · exact absurd hq hde
            rw [pnext_not_done_eq hde' (by
              show m.cursor < ((m.tokens ++ [m.stream.headD eofTok]).length : Int)
              simp only [List.length_append, List.length_singleton]
              push_cast
              omega)]
            simp only [pulled]
            rw [idx_append_left (by
              simp only [List.length_append, List.length_singleton]
              push_cast
              omega), hidx]
            rfl
        · -- cursor on the last buffered token, not done: buffer grows but the
          -- current slot keeps its token
          have hge : 0 ≤ m.cursor := by omega
          have hcm : curVal m = idx m.tokens m.cursor := by
            rw [curVal, pcur, if_neg hm1]
            obtain ⟨t2, ht2⟩ := idx_eq_some m.tokens m.cursor hge h2
            rw [ht2]
            rfl
          have hm'c : ¬ (pulled m).cursor = -1 := hm1
          have hcm' : curVal (pulled m) = idx (pulled m).tokens (pulled m).cursor := by
            rw [curVal, pcur, if_neg hm'c]
            obtain ⟨t2, ht2⟩ := idx_eq_some (pulled m).tokens (pulled m).cursor
              (by show 0 ≤ m.cursor; omega)
              (by
                show m.cursor < ((m.tokens ++ [m.stream.headD eofTok]).length : Int)
                simp only [List.length_append, List.length_singleton]
                push_cast
                omega)
            rw [ht2]
            rfl
          rw [hcm, hcm']
          exact idx_append_left h2
    | true =>
      obtain ⟨t0, ht0, hp0⟩ := ppeek_at_end hmd (by omega) ⟨h1, h2, h3⟩
      rw [hp] at hp0
      cases hp0
      have hne : m.tokens ≠ [] := tokens_ne_nil_of_done ⟨h1, h2, h3⟩ hmd
      have hlen : 0 < (m.tokens.length : Int) := by
        have := List.length_pos.mpr hne
        omega
      have hge : 0 ≤ m.cursor := by omega
      have hone : idx m.tokens (m.cursor - 1 + 1) = some t := by
        rw [show m.cursor - 1 + 1 = m.cursor from by omega]
        exact ht0
      refine ⟨hone, ?_, ?_, fun _ _ => by rw [hmd]⟩
      · obtain ⟨t1, ht1, hp1⟩ := @ppeek_buffered
          { done := m.done, tokens := m.tokens, cursor := m.cursor - 1, stream := m.stream }
          (by show -1 ≤ m.cursor - 1; omega)
          (by show m.cursor - 1 + 1 < (m.tokens.length : Int); omega)
        have ht1' : idx m.tokens (m.cursor - 1 + 1) = some t1 := ht1
        rw [hone] at ht1'
        cases ht1'
        exact hp1
      · intro hnc
        have hcz : m.cursor = 0 := by
          rcases not_and_or.mp hnc with hbad | hrest
          · exact absurd rfl hbad
          · rcases not_and_or.mp hrest with hbad2 | hbad3
            · omega
            · omega
        have hcm : curVal m = idx m.tokens m.cursor := by
          rw [curVal, pcur, if_neg (by omega)]
          obtain ⟨t2, ht2⟩ := idx_eq_some m.tokens m.cursor hge h2
          rw [ht2]
          rfl
        have hm'c : ({ m with cursor := m.cursor - 1 }).cursor = -1 := by
          show m.cursor - 1 = -1
          omega
        have hcm' : curVal ({ m with cursor := m.cursor - 1 }) =
            idx m.tokens (m.cursor - 1 + 1) := by
          rw [curVal, pcur, if_pos hm'c]
          rw [pnext_done_adv_eq
            (show ({ m with cursor := m.cursor - 1 }).done = true from hmd)
            (by show m.cursor - 1 + 1 < (m.tokens.length : Int); omega)]
          obtain ⟨t2, ht2⟩ := idx_eq_some m.tokens (m.cursor - 1 + 1)
            (by omega) (by omega)
          dsimp only
          rw [ht2]
          rfl
        rw [hcm, hcm', show m.cursor - 1 + 1 = m.cursor from by omega]

/-- Witness for the amended C3 at a concrete reachable state. -/
theorem peek_frame_amended_witness :
    idx c3pager3.tokens (c3pager3.cursor + 1) = some eofTok ∧
    ppeek c3pager3 = some (eofTok, c3pager3) ∧
    (¬(c3pager2.done = true ∧ (c3pager2.tokens.length : Int) ≤ c3pager2.cursor + 1 ∧
        1 ≤ c3pager2.cursor) →
      curVal c3pager3 = curVal c3pager2) ∧
    (c3pager2.done = true → (c3pager2.tokens.length : Int) ≤ c3pager2.cursor + 1 →
      c3pager3 = { c3pager2 with cursor := c3pager2.cursor - 1 }) :=
  peek_frame_amended c3pager2
    (Reachable.step c3pager1 c3pager2
      (Reachable.step c3pager0 c3pager1 (Reachable.init [c3tokA, eofTok])
        (PagerStep.curStep c3pager0 c3tokA c3pager1 (by decide)))
      (PagerStep.nextStep c3pager1 eofTok c3pager2 (by decide)))
    eofTok c3pager3 (by decide)

/-! ### Dialect writers (src/expr/dialect.go)

The Go writers append to an internal buffer; each `WriteXxx` method is
modelled as a pure function returning the emitted text.  Go quote bytes are
modelled as `Char` (only ASCII quotes occur). -/

/-- Escape helper for the characters of a string: double every occurrence of
the quote character. -/
def quoteEscapeChars (q : Char) : List Char → List Char
  | [] => []
  | c :: cs => if c = q then q :: q :: quoteEscapeChars q cs else c :: quoteEscapeChars q cs

/-- Modelled from the spec: the shared escape helper `LiteralQuoteEscape`
(its implementation file is not under src/) — "wraps `s` in the configured
literal-quote, escaping embedded occurrences of the quote by doubling". -/
def LiteralQuoteEscape (q : Char) (s : String) : String :=
  String.mk (q :: (quoteEscapeChars q s.data ++ [q]))

/-- Modelled from the spec: the quote-necessity test of
`IdentityMaybeEscapeBuf` (not under src/) — "quotes only when necessary
(contains whitespace, dots, reserved punctuation, or begins with a digit)". -/
def identityNeedsQuote (s : String) : Bool :=
  s.data.any (fun c => c == ' ' || c == '.' || c == ',') ||
    (match s.data with
     | [] => false
     | c :: _ => c.isDigit)

/-- Modelled from the spec: `IdentityMaybeEscapeBuf` (not under src/) —
quote with the identity quote when necessary, else emit raw. -/
def IdentityMaybeEscape (q : Char) (s : String) : String :=
  if identityNeedsQuote s then LiteralQuoteEscape q s else s

/-- `strings.ToLower` modelled character-wise (ASCII lowering, which is all
the dialect code relies on), kept kernel-computable. -/
def strToLower (s : String) : String :=
  String.mk (s.data.map (fun c =>
    if 'A' ≤ c ∧ c ≤ 'Z' then Char.ofNat (c.toNat + 32) else c))

/-- Configuration of `defaultDialect` (dialect.go lines 37-43); the buffer is
modelled by the returned string. -/
structure defaultDialect where
  Null : String
  LiteralQuote : Char
  IdentityQuote : Char
  stripNamespace : Bool
  deriving DecidableEq, Repr

/-- `NewDialectWriter(l, i)` (lines 62-64). -/
def NewDialectWriter (l i : Char) : defaultDialect :=
  { Null := "", LiteralQuote := l, IdentityQuote := i, stripNamespace := false }

/-- `NewDefaultWriter()` (lines 76-78): literal `"`, identity backtick,
null `NULL`. -/
def NewDefaultWriter : defaultDialect :=
  { Null := "NULL", LiteralQuote := '"', IdentityQuote := '`', stripNamespace := false }

/-- `NewDefaultNoNamspaceWriter()` (lines 82-88). -/
def NewDefaultNoNamspaceWriter : defaultDialect :=
  { Null := "NULL", LiteralQuote := '"', IdentityQuote := '`', stripNamespace := true }

/-- `defaultDialect.WriteLiteral` (lines 91-97): `*` passes through bare,
otherwise literal-quote escape. -/
def defaultDialect.WriteLiteral (w : defaultDialect) (l : String) : String :=
  if l = "*" then "*" else LiteralQuoteEscape w.LiteralQuote l

/-- `defaultDialect.WriteIdentity` (lines 100-106): `*` passes through bare,
otherwise quote only when needed. -/
def defaultDialect.WriteIdentity (w : defaultDialect) (i : String) : String :=
  if i = "*" then "*" else IdentityMaybeEscape w.IdentityQuote i

/-- `defaultDialect.WriteLeftRightIdentity` (lines 109-124). -/
def defaultDialect.WriteLeftRightIdentity (w : defaultDialect) (l r : String) : String :=
  if l = "" then w.WriteIdentity r
  else if w.stripNamespace then w.WriteIdentity r
  else w.WriteIdentity l ++ "." ++ w.WriteIdentity r

/-- `defaultDialect.WriteIdentityQuote` (lines 127-133).  Faithful to the
source: the body quotes with `w.IdentityQuote` and never reads the `quote`
parameter. -/
def defaultDialect.WriteIdentityQuote (w : defaultDialect) (i : String) (quote : Char) :
    String :=
  if i = "*" then "*" else LiteralQuoteEscape w.IdentityQuote i

/-- `defaultDialect.WriteNumber` (lines 134-136): raw numeric text. -/
def defaultDialect.WriteNumber (w : defaultDialect) (n : String) : String := n

/-- The `DialectWriter` interface (lines 24-35), restricted to the emission
methods the claims are about, as a table of emission functions.  Method
dispatch on a Go value is modelled by building this table from the value. -/
structure DialectWriter where
  WriteLiteral : String → String
  WriteIdentity : String → String
  WriteLeftRightIdentity : String → String → String
  WriteIdentityQuote : String → Char → String
  WriteNumber : String → String

/-- The method table of a `defaultDialect` value. -/
def defaultDialect.writer (w : defaultDialect) : DialectWriter :=
  { WriteLiteral := w.WriteLiteral
    WriteIdentity := w.WriteIdentity
    WriteLeftRightIdentity := w.WriteLeftRightIdentity
    WriteIdentityQuote := w.WriteIdentityQuote
    WriteNumber := w.WriteNumber }

/-- `fingerprintDialect` (lines 49-52, 211-219) as a decorator over any base
writer: `WriteLiteral`, `WriteNumber` and `WriteIdentity` are overridden
(lines 211-219); `WriteLeftRightIdentity` and `WriteIdentityQuote` are NOT
overridden, so Go interface embedding promotes the embedded writer's methods
— inner calls they make dispatch on the base receiver. -/
def fingerprintDialect (b : DialectWriter) (replace : String) : DialectWriter :=
  { WriteLiteral := fun _ => replace
    WriteNumber := fun _ => replace
    WriteIdentity := fun id => b.WriteIdentity (strToLower id)
    WriteLeftRightIdentity := b.WriteLeftRightIdentity
    WriteIdentityQuote := b.WriteIdentityQuote }

/-- `NewFingerPrinter()` (lines 205-207): fingerprint over a default writer
with placeholder `?`. -/
def NewFingerPrinter : DialectWriter :=
  fingerprintDialect NewDefaultWriter.writer "?"

/-- `NewFingerPrintWriter(replace, w)` (lines 208-210). -/
def NewFingerPrintWriter (replace : String) (w : DialectWriter) : DialectWriter :=
  fingerprintDialect w replace

/-- The key set of the Go map built by `NewKeywordDialect` (lines 186-195):
`m[w] = struct{}{}` for each word, in order, words stored as given. -/
def mkKeywordMap (kw : List String) : List String :=
  kw.foldl (fun mp w => if w ∈ mp then mp else mp ++ [w]) []

/-- `keywordDialect` (lines 54-57): a default dialect plus the keyword set. -/
structure keywordDialect where
  base : defaultDialect
  kw : List String
  deriving DecidableEq, Repr

/-- `NewKeywordDialect(kw)` (lines 186-195). -/
def NewKeywordDialect (kw : List String) : keywordDialect :=
  { base := { Null := "NULL", LiteralQuote := '"', IdentityQuote := '`',
              stripNamespace := false }
    kw := mkKeywordMap kw }

/-- `keywordDialect.WriteIdentity` (lines 196-203): look the LOWER-CASED id
up in the keyword map; force-quote on a hit, else delegate to the default. -/
def keywordDialect.WriteIdentity (w : keywordDialect) (id : String) : String :=
  if strToLower id ∈ w.kw then LiteralQuoteEscape w.base.IdentityQuote id
  else w.base.WriteIdentity id

theorem mem_mkKeywordMap (kw : List String) (x : String) :
    x ∈ mkKeywordMap kw ↔ x ∈ kw := by
  suffices h : ∀ acc, x ∈ kw.foldl (fun mp w => if w ∈ mp then mp else mp ++ [w]) acc ↔
      x ∈ acc ∨ x ∈ kw by
    have := h []
    simpa [mkKeywordMap] using this
  induction kw with
  | nil => intro acc; simp
  | cons w ws ih =>
    intro acc
    rw [List.foldl_cons, ih]
    by_cases hw : w ∈ acc
    · rw [if_pos hw]
      constructor
      · rintro (ha | hws)
        · exact Or.inl ha
        · exact Or.inr (List.mem_cons_of_mem w hws)
      · rintro (ha | hc)
        · exact Or.inl ha
        · rcases List.mem_cons.mp hc with rfl | hws
          · exact Or.inl hw
          · exact Or.inr hws
    · rw [if_neg hw]
      constructor
      · rintro (ha | hws)
        · rcases List.mem_append.mp ha with ha2 | hx
          · exact Or.inl ha2
          · rcases List.mem_singleton.mp hx with rfl
            exact Or.inr (List.mem_cons_self _ _)
        · exact Or.inr (List.mem_cons_of_mem w hws)
      · rintro (ha | hc)
        · exact Or.inl (List.mem_append_left _ ha)
        · rcases List.mem_cons.mp hc with rfl | hws
          · exact Or.inl (List.mem_append_right _ (List.mem_singleton_self _))
          · exact Or.inr hws

/-- The claim's matching notion for C6: an identifier matches a keyword-list
word case-insensitively (stated from the spec's words, for comparison with
the code's behaviour). -/
def specCaseInsensitiveMatch (id w : String) : Bool :=
  strToLower id == strToLower w

/-- C7: `WriteIdentityQuote` ignores its `quote` parameter.  On a default
writer (identity quote backtick), asking for a double-quote still emits
backticks, contradicting the claim (and the method's own doc comment) that
the caller-supplied quote is used. -/
theorem writeIdentityQuote_ignores_quote :
    NewDefaultWriter.WriteIdentityQuote "x" '"' = "`x`" ∧
    LiteralQuoteEscape '"' "x" = "\"x\"" ∧
    ("`x`" : String) ≠ "\"x\"" := by
  decide

/-- C6 counterexample: with keyword list `["SELECT"]`, the identifier
`select` matches `SELECT` case-insensitively, yet the keyword writer does
NOT force-quote it — the map is keyed by the words as given while the lookup
lower-cases only the identifier. -/
theorem keyword_case_cex :
    specCaseInsensitiveMatch "select" "SELECT" = true ∧
    (NewKeywordDialect ["SELECT"]).WriteIdentity "select" = "select" ∧
    LiteralQuoteEscape '`' "select" = "`select`" ∧
    ("select" : String) ≠ "`select`" := by
  decide

/-- C6 (amended): the keyword writer force-quotes `id` with the identity
quote iff the LOWER-CASED `id` is literally one of the supplied words (so a
case-insensitive match only happens against lower-case words); otherwise it
delegates to the default identity emission. -/
theorem keywordWriteIdentity_amended (kw : List String) (id : String) :
    (strToLower id ∈ kw →
      (NewKeywordDialect kw).WriteIdentity id = LiteralQuoteEscape '`' id) ∧
    (strToLower id ∉ kw →
      (NewKeywordDialect kw).WriteIdentity id = NewDefaultWriter.WriteIdentity id) := by
  constructor
  · intro hmem
    rw [keywordDialect.WriteIdentity,
      if_pos (by rw [show (NewKeywordDialect kw).kw = mkKeywordMap kw from rfl,
        mem_mkKeywordMap]; exact hmem)]
    rfl
  · intro hmem
    rw [keywordDialect.WriteIdentity,
      if_neg (by rw [show (NewKeywordDialect kw).kw = mkKeywordMap kw from rfl,
        mem_mkKeywordMap]; exact hmem)]
    rfl

/-- Witness for the amended C6 at a concrete keyword list and identifier. -/
theorem keywordWriteIdentity_amended_witness :
    (NewKeywordDialect ["select"]).WriteIdentity "SELECT" =
      LiteralQuoteEscape '`' "SELECT" :=
  (keywordWriteIdentity_amended ["select"] "SELECT").1 (by decide)

/-- C8 counterexample: a qualified identity emitted through the fingerprint
writer is NOT lower-cased — `WriteLeftRightIdentity` is not overridden by
`fingerprintDialect`, so Go method promotion runs it on the embedded base
writer, whose inner `WriteIdentity` calls dispatch on the base receiver. -/
theorem fingerprint_leftright_cex :
    NewFingerPrinter.WriteLeftRightIdentity "Users" "Email" = "Users.Email" ∧
    ("Users.Email" : String) ≠ "users.email" := by
  decide

/-- C8 (amended): through a fingerprint writer every `WriteLiteral` and
`WriteNumber` call emits the placeholder (`?` for `NewFingerPrinter`), and
`WriteIdentity` lower-cases before delegating; but `WriteLeftRightIdentity`
falls through to the embedded base writer with no lower-casing. -/
theorem fingerprint_amended (b : DialectWriter) (replace lit num id l r : String) :
    (fingerprintDialect b replace).WriteLiteral lit = replace ∧
    (fingerprintDialect b replace).WriteNumber num = replace ∧
    (fingerprintDialect b replace).WriteIdentity id = b.WriteIdentity (strToLower id) ∧
    (fingerprintDialect b replace).WriteLeftRightIdentity l r =
      b.WriteLeftRightIdentity l r ∧
    NewFingerPrinter.WriteLiteral lit = "?" ∧
    NewFingerPrinter.WriteNumber num = "?" ∧
    NewFingerPrinter.WriteIdentity id = NewDefaultWriter.WriteIdentity (strToLower id) :=
  ⟨rfl, rfl, rfl, rfl, rfl, rfl, rfl⟩

/-! ### The expression parser (src/unnamed/part_000)

The Go parser walks the pager strictly forward (its only `Peek` is a
one-token lookahead and its only `Backup` is on a dead path after a panic),
so its state is embedded as the list of tokens not yet consumed: `Cur()` is
the head (EOF once exhausted, as the pager keeps returning the buffered EOF),
`Next()` drops the head.  Panics are `Except.error`; the mutually recursive
grammar functions become one fuel-indexed function over a `Rule` tag, one
tag per source function or source loop. -/

/-- A Go panic value raised by the parser: `errVal` for `t.errorf`
(a `fmt.Errorf` value, message prefixed `expr: `), `strVal` for the two
plain-string panics (`F`'s default case, `Func`'s missing left paren). -/
inductive PanicValue where
  | errVal (msg : String)
  | strVal (msg : String)
  deriving DecidableEq, Repr

/-- The function descriptor `expr.Func`, reduced to what the parser touches:
the `Name` field it sets on synthetic descriptors, plus an abstract stand-in
`F` for the evaluator payload a registered descriptor carries (the parser
never reads it; it makes registered and synthetic descriptors
distinguishable, as they are in Go). -/
structure Func where
  Name : String
  F : Option Nat := none
  deriving DecidableEq, Repr

/-- Go map lookup on the registry (association list, first binding wins). -/
def lookupFunc (reg : List (String × Func)) (key : String) : Option Func :=
  match reg with
  | [] => none
  | (k, v) :: rest => if k = key then some v else lookupFunc rest key

/-- `Tree.getFunction` (lines 564-569): look up the LOWER-CASED name in the
global registry. -/
def getFunction (reg : List (String × Func)) (name : String) : Option Func :=
  lookupFunc reg (strToLower name)

/-- The AST node family the parser builds (`NewNumber`, `NewStringNode`,
`NewIdentityNode`, `NewUnary`, `NewBinaryNode`, `NewTriNode`,
`NewMultiArgNode`, `NewFuncNode`).  Number nodes keep their originating text
(the spec: "preserves originating text for round-trip"); binary nodes carry
the `Paren` flag. -/
inductive Node where
  | number (pos : Nat) (text : String)
  | str (pos : Nat) (v : String)
  | identity (pos : Nat) (v : String)
  | unary (op : Token) (child : Node)
  | binary (op : Token) (paren : Bool) (lhs rhs : Node)
  | tri (op : Token) (first second third : Node)
  | multiArg (op : Token) (args : List Node)
  | funcNode (pos : Nat) (name : String) (impl : Func) (args : List Node)

/-- `MultiArgNode.Append` / `FuncNode.append`: push an argument. -/
def Node.appendArg : Node → Node → Node
  | .multiArg op args, n => .multiArg op (args ++ [n])
  | .funcNode pos name impl args, n => .funcNode pos name impl (args ++ [n])
  | m, _ => m

/-- The `if bn, ok := n.(*BinaryNode); ok { bn.Paren = true }` idiom of `F`
and `v`: raise the paren flag on binary nodes only. -/
def setParen : Node → Node
  | .binary op _ l r => .binary op true l r
  | n => n

/-- Modelled from the spec: the numeric validation of `NewNumber` (node
implementation not under src/) — "must parse": digits with at most one dot,
starting with a digit. -/
def validNumber (s : String) : Bool :=
  match s.data with
  | [] => false
  | c :: rest =>
    c.isDigit && (c :: rest).all (fun d => d.isDigit || d == '.') &&
      decide ((c :: rest).countP (fun d => d == '.') ≤ 1)

/-- `Cur()` in the token-list embedding (EOF once exhausted). -/
def curTok (ts : List Token) : Token := ts.headD eofTok

/-- `Peek()` in the token-list embedding. -/
def peekTok (ts : List Token) : Token := (ts.drop 1).headD eofTok

/-- `Next()` in the token-list embedding: drop the current token. -/
def nextTs (ts : List Token) : List Token := ts.tail

/-- Rendering of a token inside an error message (the lex.Token `String`
method is external; the claims only rely on the message around it). -/
def tokenStr (t : Token) : String := t.V

/-- `t.errorf` (lines 134-140): prefix `expr: ` and panic with the error. -/
def errorfPanic (msg : String) : PanicValue := .errVal ("expr: " ++ msg)

/-- `t.unexpected` (lines 168-171). -/
def unexpectedPanic (t : Token) (context : String) : PanicValue :=
  errorfPanic ("unexpected " ++ tokenStr t ++ " in " ++ context)

/-- The parse context: the global function registry `funcs` and the tree's
`runCheck` flag. -/
structure ParseCtx where
  funcs : List (String × Func)
  runCheck : Bool

/-- One tag per grammar function (`O`, `A`, `C`, `P`, `M`, `F`, `v`,
`MultiArg`, `Func`) or per source `for` loop, the loop tags carrying the
accumulated node exactly as the Go local does. -/
inductive Rule where
  | rO | rA | rC | rP | rM | rF | rV
  | rOLoop (n : Node)
  | rALoop (n : Node)
  | rCLoop (n : Node)
  | rPLoop (n : Node)
  | rMLoop (n : Node)
  | rMultiArg (first : Node) (op : Token)
  | rMultiArgLoop (acc : Node)
  | rFunc (tok : Token)
  | rFuncLoop (fn : Node)

/-- `Tree.Func` descriptor resolution (lines 484-495): registry hit wins; on
a miss, strict mode panics `expr: non existent function <name>`, lax mode
builds the synthetic `Func{Name: token.V}`. -/
def funcResolve (cx : ParseCtx) (tok : Token) : Except PanicValue Func :=
  match getFunction cx.funcs tok.V with
  | some v => .ok v
  | none =>
    if cx.runCheck then .error (errorfPanic ("non existent function " ++ tok.V))
    else .ok { Name := tok.V }

/-- One step of the parser: the body of every grammar function, with the
recursive call abstracted (`rec` is the parser at one unit less fuel).  Each
`Rule` case is the direct transcription of the source function of the same
name (`part_000` lines 251-561). -/
def parseStep (cx : ParseCtx)
    (rec : Rule → List Token → Except PanicValue (Node × List Token)) :
    Rule → List Token → Except PanicValue (Node × List Token) := fun r ts =>
    match r with
    | .rO =>
      (rec .rA ts).bind (fun p => rec (.rOLoop p.1) p.2)
    | .rOLoop n =>
      match (curTok ts).T with
      | .tLogicOr | .tOr =>
        (rec .rA (nextTs ts)).bind (fun p =>
          rec (.rOLoop (.binary (curTok ts) false n p.1)) p.2)
      | .tCommentSingleLine =>
        -- consume the comment signifier as well as the comment
        rec (.rOLoop n) (nextTs (nextTs ts))
      | .tEOF | .tEOS | .tFrom | .tComma | .tIf | .tAs | .tSelect | .tLimit =>
        -- indicators of End of Current Clause
        .ok (n, ts)
      | _ => .ok (n, ts)
    | .rA =>
      (rec .rC ts).bind (fun p => rec (.rALoop p.1) p.2)
    | .rALoop n =>
      match (curTok ts).T with
      | .tLogicAnd | .tAnd =>
        (rec .rC (nextTs ts)).bind (fun p =>
          rec (.rALoop (.binary (curTok ts) false n p.1)) p.2)
      | _ => .ok (n, ts)
    | .rC =>
      (rec .rP ts).bind (fun p => rec (.rCLoop p.1) p.2)
    | .rCLoop n =>
      match (curTok ts).T with
      | .tEqual | .tEqualEqual | .tNE | .tGT | .tGE | .tLE | .tLT | .tLike =>
        (rec .rP (nextTs ts)).bind (fun p =>
          rec (.rCLoop (.binary (curTok ts) false n p.1)) p.2)
      | .tBetween =>
        -- BETWEEN x AND y: the AND is a delimiter (expect LogicAnd, consume)
        (rec .rP (nextTs ts)).bind (fun p =>
          if (curTok p.2).T = .tLogicAnd then
            (rec .rP (nextTs p.2)).bind (fun q =>
              rec (.rCLoop (.tri (curTok ts) n p.1 q.1)) q.2)
          else .error (unexpectedPanic (curTok p.2) "input"))
      | .tIN =>
        rec (.rMultiArg n (curTok ts)) (nextTs ts)
      | _ => .ok (n, ts)
    | .rP =>
      (rec .rM ts).bind (fun p => rec (.rPLoop p.1) p.2)
    | .rPLoop n =>
      match (curTok ts).T with
      | .tPlus | .tMinus =>
        (rec .rM (nextTs ts)).bind (fun p =>
          rec (.rPLoop (.binary (curTok ts) false n p.1)) p.2)
      | _ => .ok (n, ts)
    | .rM =>
      (rec .rF ts).bind (fun p => rec (.rMLoop p.1) p.2)
    | .rMLoop n =>
      match (curTok ts).T with
      | .tStar | .tMultiply | .tDivide | .tModulus =>
        (rec .rF (nextTs ts)).bind (fun p =>
          rec (.rMLoop (.binary (curTok ts) false n p.1)) p.2)
      | _ => .ok (n, ts)
    | .rMultiArg first op =>
      -- t.expect(LeftParenthesis, "input"); t.Next()
      if (curTok ts).T = .tLeftParenthesis then
        rec (.rMultiArgLoop (.multiArg op [first])) (nextTs ts)
      else .error (unexpectedPanic (curTok ts) "input")
    | .rMultiArgLoop acc =>
      match (curTok ts).T with
      | .tRightParenthesis => .ok (acc, nextTs ts)
      | .tComma => rec (.rMultiArgLoop acc) (nextTs ts)
      | _ =>
        -- elements are parsed at the O level (t.O never returns Go-nil here)
        (rec .rO ts).bind (fun p =>
          rec (.rMultiArgLoop (acc.appendArg p.1)) p.2)
    | .rF =>
      match (curTok ts).T with
      | .tUdfExpr | .tInteger | .tFloat | .tIdentity | .tValue | .tStar =>
        rec .rV ts
      | .tNegate | .tMinus =>
        (rec .rF (nextTs ts)).bind (fun p =>
          .ok (.unary (curTok ts) p.1, p.2))
      | .tLeftParenthesis =>
        (rec .rO (nextTs ts)).bind (fun p =>
          if (curTok p.2).T = .tRightParenthesis then .ok (setParen p.1, nextTs p.2)
          else .error (unexpectedPanic (curTok p.2) "input"))
      | _ =>
        .error (.strVal ("unexpected token " ++ tokenStr (curTok ts) ++ " "))
    | .rV =>
      match (curTok ts).T with
      | .tInteger | .tFloat =>
        if validNumber (curTok ts).V then
          .ok (.number (curTok ts).Pos (curTok ts).V, nextTs ts)
        else .error (errorfPanic ("unable to parse number " ++ (curTok ts).V))
      | .tValue => .ok (.str (curTok ts).Pos (curTok ts).V, nextTs ts)
      | .tIdentity => .ok (.identity (curTok ts).Pos (curTok ts).V, nextTs ts)
      | .tStar => .ok (.str (curTok ts).Pos (curTok ts).V, nextTs ts)
      | .tUdfExpr => rec (.rFunc (curTok ts)) ts
      | .tLeftParenthesis =>
        -- dead in practice (rF intercepts the paren first); transcribed with
        -- the source's consume-then-expect order (lines 446-457)
        (rec .rO (nextTs ts)).bind (fun p =>
          if (curTok (nextTs p.2)).T = .tRightParenthesis then
            .ok (setParen p.1, nextTs p.2)
          else .error (unexpectedPanic (curTok (nextTs p.2)) "input"))
      | _ =>
        -- IsEnd() is always false on a LexTokenPager, so this panics
        .error (unexpectedPanic (curTok ts) "input")
    | .rFunc tok =>
      if (peekTok ts).T = .tLeftParenthesis then
        match funcResolve cx tok with
        | .error e => .error e
        | .ok funcImpl =>
          -- t.Next() to the left paren; t.expect(LeftParenthesis, "func")
          if (curTok (nextTs ts)).T = .tLeftParenthesis then
            rec (.rFuncLoop (.funcNode tok.Pos tok.V funcImpl [])) (nextTs ts)
          else .error (unexpectedPanic (curTok (nextTs ts)) "func")
      else .error (.strVal "must have left paren on function")
    | .rFuncLoop fn =>
      -- loop top: node = nil; t.Next()
      match (curTok (nextTs ts)).T with
      | .tRightParenthesis =>
        -- t.Next(); node is nil here, nothing appended
        .ok (fn, nextTs (nextTs ts))
      | .tEOF | .tEOS | .tFrom => .ok (fn, nextTs ts)
      | _ =>
        (rec .rO (nextTs ts)).bind (fun p =>
          match (curTok p.2).T with
          | .tComma => rec (.rFuncLoop (fn.appendArg p.1)) p.2
          | .tRightParenthesis => .ok (fn.appendArg p.1, nextTs p.2)
          | .tEOF | .tEOS | .tFrom => .ok (fn.appendArg p.1, nextTs p.2)
          | .tEqual | .tEqualEqual | .tNE | .tGT | .tGE | .tLE | .tLT
          | .tStar | .tMultiply | .tDivide =>
            -- this func arg is an expression continuation; the node parsed
            -- just before is replaced and only the re-parse is appended
            (rec .rO p.2).bind (fun q =>
              rec (.rFuncLoop (fn.appendArg q.1)) q.2)
          | _ => .error (unexpectedPanic (curTok p.2) "func"))

mutual

/-- The parser: `parseStep` iterated under a fuel bound (fuel only limits the
recursion depth; every concrete parse below runs with ample fuel). -/
def parse (cx : ParseCtx) : Nat → Rule → List Token → Except PanicValue (Node × List Token)
  | 0, _, _ => .error (.strVal "out of fuel")
  | fuel + 1, r, ts => parseStep cx (parse cx fuel) r ts

/-- Modelled from the spec: the Identity invariant — "Neither part may be
empty after split on `.`" (node implementation not under src/): the char
list is a dot-separated sequence of non-empty parts. -/
def dotPartsOk : List Char → Bool
  | [] => false
  | c :: rest => if c = '.' then false else dotPartsTail rest

/-- Helper of `dotPartsOk`: scan the remainder of a part. -/
def dotPartsTail : List Char → Bool
  | [] => true
  | c :: rest => if c = '.' then dotPartsOk rest else dotPartsTail rest
end

mutual
/-- Modelled from the spec: `Node.Check` — "local structural validation"
(node implementation not under src/): numbers must parse, identity parts are
non-empty, a `MultiArg` has at least one argument, children are checked
recursively; a `Func` node "delegates to the resolved descriptor", whose own
checks live in the builtins module outside this repository and are modelled
as accepting. -/
def nodeCheck : Node → Option String
  | .number _ text =>
    if validNumber text then none else some ("unable to parse number " ++ text)
  | .str _ _ => none
  | .identity _ v => if dotPartsOk v.data then none else some ("invalid identity " ++ v)
  | .unary _ c => nodeCheck c
  | .binary _ _ l r => (nodeCheck l).orElse (fun _ => nodeCheck r)
  | .tri _ a b c =>
    ((nodeCheck a).orElse (fun _ => nodeCheck b)).orElse (fun _ => nodeCheck c)
  | .multiArg _ args =>
    if args.isEmpty then some "empty multi-arg list" else nodeCheckList args
  | .funcNode _ _ _ args => nodeCheckList args

/-- Check every node of an argument list. -/
def nodeCheckList : List Node → Option String
  | [] => none
  | n :: rest => (nodeCheck n).orElse (fun _ => nodeCheckList rest)
end

/-- `Tree.BuildTree` (lines 188-207): `Root = t.O(0)`; the `IsEnd` branch is
empty; with `runCheck` a failing `Root.Check()` reaches `t.error(err)`, which
panics — so the `return err` after it is dead code.  `.ok (root, rest)` is
BuildTree returning nil error with `t.Root = root`; `.error p` is the panic
`p` escaping BuildTree, which installs no recover handler (`Tree.recover`,
lines 173-184, is defined but never deferred by anything in the package). -/
def buildTree (reg : List (String × Func)) (runCheck : Bool) (fuel : Nat)
    (ts : List Token) : Except PanicValue (Node × List Token) :=
  (parse ⟨reg, runCheck⟩ fuel .rO ts).bind (fun p =>
    if runCheck then
      match nodeCheck p.1 with
      | some err => .error (errorfPanic err)
      | none => .ok p
    else .ok p)

mutual
/-- Does a node contain a `Binary` node whose operator is AND (`&&` or the
keyword)?  Used to state that BETWEEN's delimiter AND creates no such node. -/
def hasAndBinary : Node → Bool
  | .number _ _ => false
  | .str _ _ => false
  | .identity _ _ => false
  | .unary _ c => hasAndBinary c
  | .binary op _ l r =>
    op.T == .tLogicAnd || op.T == .tAnd || hasAndBinary l || hasAndBinary r
  | .tri _ a b c => hasAndBinary a || hasAndBinary b || hasAndBinary c
  | .multiArg _ args => hasAndBinaryList args
  | .funcNode _ _ _ args => hasAndBinaryList args

/-- `hasAndBinary` over an argument list. -/
def hasAndBinaryList : List Node → Bool
  | [] => false
  | n :: rest => hasAndBinary n || hasAndBinaryList rest
end

/-- C1: the parse of the token stream of `5 +` panics inside `F` (unexpected
EOF), and the panic propagates out of `BuildTree` — no recover handler is
installed, so BuildTree neither returns a valid tree nor converts the panic
into a returned error. -/
theorem buildTree_panic_escapes :
    buildTree [] true 20 [⟨.tInteger, "5", 0⟩, ⟨.tPlus, "+", 2⟩] =
      .error (.strVal "unexpected token  ") := by
  rfl

/-- C9: at the O level, when the current token is EOF, end-of-statement,
FROM, comma, IF, AS, SELECT or LIMIT, the accumulated node is returned with
no error and the terminator is left unconsumed. -/
theorem oLevel_terminators (cx : ParseCtx) (f : Nat) (n : Node) (tok : Token)
    (rest : List Token)
    (h : tok.T = .tEOF ∨ tok.T = .tEOS ∨ tok.T = .tFrom ∨ tok.T = .tComma ∨
      tok.T = .tIf ∨ tok.T = .tAs ∨ tok.T = .tSelect ∨ tok.T = .tLimit) :
    parse cx (f + 1) (.rOLoop n) (tok :: rest) = .ok (n, tok :: rest) := by
  rcases h with h|h|h|h|h|h|h|h <;> simp [parse, parseStep, curTok, h]

/-- Witness for C9 at a concrete terminator. -/
theorem oLevel_terminators_witness :
    parse ⟨[], true⟩ 5 (.rOLoop (.identity 0 "a")) [⟨.tFrom, "FROM", 2⟩] =
      .ok (.identity 0 "a", [⟨.tFrom, "FROM", 2⟩]) :=
  oLevel_terminators ⟨[], true⟩ 4 (.identity 0 "a") ⟨.tFrom, "FROM", 2⟩ []
    (Or.inr (Or.inr (Or.inl rfl)))

/-- Tokens that continue the C level's loop (comparison operators, BETWEEN,
IN). -/
def cContinues (t : Token) : Bool :=
  match t.T with
  | .tEqual | .tEqualEqual | .tNE | .tGT | .tGE | .tLE | .tLT | .tLike
  | .tBetween | .tIN => true
  | _ => false

/-- The C loop returns its accumulator untouched on any non-continuation
token. -/
theorem cLoop_stop (cx : ParseCtx) (g : Nat) (m : Node) (ts : List Token)
    (hstop : cContinues (curTok ts) = false) :
    parse cx (g + 1) (.rCLoop m) ts = .ok (m, ts) := by
  cases hq : (curTok ts).T <;> simp [cContinues, hq] at hstop <;> simp [parse, parseStep, hq]

/-- Reduction of `Except.bind` on a success value. -/
theorem exceptBind_ok {A B E : Type} (x : A) (g : A → Except E B) :
    Except.bind (Except.ok x) g = g x := rfl

/-- C4: a BETWEEN at the C level consumes the operand-separating AND as a
delimiter (it is `expect`ed and skipped) and builds a `Tri` node from the
accumulated operand and the two P-level bounds — the result is exactly
`tri(BETWEEN, e1, e2, e3)`, so the delimiter AND contributes no `Binary`
AND node (last conjunct). -/
theorem between_tri (cx : ParseCtx) (f : Nat) (n n2 n3 : Node) (btok : Token)
    (ts1 ts2 ts3 : List Token)
    (hb : btok.T = .tBetween)
    (h2 : parse cx (f + 1) .rP ts1 = .ok (n2, ts2))
    (ha : (curTok ts2).T = .tLogicAnd)
    (h3 : parse cx (f + 1) .rP (nextTs ts2) = .ok (n3, ts3))
    (hstop : cContinues (curTok ts3) = false) :
    parse cx (f + 2) (.rCLoop n) (btok :: ts1) = .ok (.tri btok n n2 n3, ts3) ∧
    hasAndBinary (.tri btok n n2 n3) =
      (hasAndBinary n || hasAndBinary n2 || hasAndBinary n3) := by
  constructor
  · obtain ⟨bT, bV, bP⟩ := btok
    have hb' : bT = .tBetween := hb
    subst hb'
    show (parse cx (f + 1) .rP ts1).bind (fun p =>
        if (curTok p.2).T = .tLogicAnd then
          (parse cx (f + 1) .rP (nextTs p.2)).bind (fun q =>
            parse cx (f + 1)
              (.rCLoop (.tri ⟨.tBetween, bV, bP⟩ n p.1 q.1)) q.2)
        else .error (unexpectedPanic (curTok p.2) "input")) =
      .ok (.tri ⟨.tBetween, bV, bP⟩ n n2 n3, ts3)
    rw [h2, exceptBind_ok, if_pos ha, h3, exceptBind_ok]
    exact cLoop_stop cx f _ ts3 hstop
  · rfl

/-- Witness for C4 on `x BETWEEN 1 AND 10`. -/
theorem between_tri_witness :
    parse ⟨[], true⟩ 12 (.rCLoop (.identity 0 "x"))
        [⟨.tBetween, "BETWEEN", 2⟩, ⟨.tInteger, "1", 10⟩, ⟨.tLogicAnd, "AND", 12⟩,
         ⟨.tInteger, "10", 16⟩] =
      .ok (.tri ⟨.tBetween, "BETWEEN", 2⟩ (.identity 0 "x") (.number 10 "1")
        (.number 16 "10"), []) ∧
    hasAndBinary (.tri ⟨.tBetween, "BETWEEN", 2⟩ (.identity 0 "x") (.number 10 "1")
        (.number 16 "10")) =
      (hasAndBinary (.identity 0 "x") || hasAndBinary (.number 10 "1") ||
        hasAndBinary (.number 16 "10")) :=
  between_tri ⟨[], true⟩ 10 (.identity 0 "x") (.number 10 "1") (.number 16 "10")
    ⟨.tBetween, "BETWEEN", 2⟩
    [⟨.tInteger, "1", 10⟩, ⟨.tLogicAnd, "AND", 12⟩, ⟨.tInteger, "10", 16⟩]
    [⟨.tLogicAnd, "AND", 12⟩, ⟨.tInteger, "10", 16⟩] []
    rfl (by rfl) rfl (by rfl) rfl

mutual
/-- Erase every function descriptor in a tree, leaving only the name the
node itself carries: trees are equal after `scrubImpl` iff they have the
same structure apart from the resolved descriptors. -/
def scrubImpl : Node → Node
  | .number p t => .number p t
  | .str p v => .str p v
  | .identity p v => .identity p v
  | .unary op c => .unary op (scrubImpl c)
  | .binary op paren l r => .binary op paren (scrubImpl l) (scrubImpl r)
  | .tri op a b c => .tri op (scrubImpl a) (scrubImpl b) (scrubImpl c)
  | .multiArg op args => .multiArg op (scrubImplList args)
  | .funcNode pos name _ args => .funcNode pos name ⟨name, none⟩ (scrubImplList args)

/-- `scrubImpl` over an argument list. -/
def scrubImplList : List Node → List Node
  | [] => []
  | n :: rest => scrubImpl n :: scrubImplList rest
end

/-- `scrubImpl` on a parse result (errors untouched). -/
def scrubE : Except PanicValue (Node × List Token) → Except PanicValue (Node × List Token)
  | .error e => .error e
  | .ok (n, rest) => .ok (scrubImpl n, rest)

theorem scrubImplList_append (a : List Node) (b : Node) :
    scrubImplList (a ++ [b]) = scrubImplList a ++ [scrubImpl b] := by
  induction a with
  | nil => rfl
  | cons x xs ih =>
    simp only [List.cons_append, scrubImplList]
    rw [show xs.append [b] = xs ++ [b] from rfl, ih]

theorem scrub_appendArg (a b : Node) :
    scrubImpl (a.appendArg b) = (scrubImpl a).appendArg (scrubImpl b) := by
  cases a <;> simp only [Node.appendArg, scrubImpl, scrubImplList_append]

theorem scrub_setParen (n : Node) :
    scrubImpl (setParen n) = setParen (scrubImpl n) := by
  cases n <;> rfl

/-- Congruence for `scrubE` across a bind: if the first stages agree after
scrubbing and the continuations agree on scrub-equal nodes with the same
rest, the whole parses agree after scrubbing. -/
theorem scrubE_bind_congr {x y : Except PanicValue (Node × List Token)}
    {k1 k2 : Node × List Token → Except PanicValue (Node × List Token)}
    (hxy : scrubE x = scrubE y)
    (hk : ∀ n n' rest, scrubImpl n = scrubImpl n' →
      scrubE (k1 (n, rest)) = scrubE (k2 (n', rest))) :
    scrubE (x.bind k1) = scrubE (y.bind k2) := by
  cases x with
  | error e =>
    cases y with
    | error e2 =>
      simp only [scrubE] at hxy
      cases hxy
      rfl
    | ok p => exact absurd hxy (by cases p; simp [scrubE])
  | ok p =>
    cases y with
    | error e2 => exact absurd hxy (by cases p; simp [scrubE])
    | ok q =>
      obtain ⟨n, rest⟩ := p
      obtain ⟨n', rest'⟩ := q
      simp only [scrubE, Except.ok.injEq, Prod.mk.injEq] at hxy
      obtain ⟨hnn, hre⟩ := hxy
      cases hre
      exact hk n n' rest hnn

/-- Rules related up to descriptor scrubbing of the nodes they carry. -/
inductive RuleR : Rule → Rule → Prop where
  | oR : RuleR .rO .rO
  | aR : RuleR .rA .rA
  | cR : RuleR .rC .rC
  | pR : RuleR .rP .rP
  | mR : RuleR .rM .rM
  | fR : RuleR .rF .rF
  | vR : RuleR .rV .rV
  | oLoopR (n n' : Node) : scrubImpl n = scrubImpl n' → RuleR (.rOLoop n) (.rOLoop n')
  | aLoopR (n n' : Node) : scrubImpl n = scrubImpl n' → RuleR (.rALoop n) (.rALoop n')
  | cLoopR (n n' : Node) : scrubImpl n = scrubImpl n' → RuleR (.rCLoop n) (.rCLoop n')
  | pLoopR (n n' : Node) : scrubImpl n = scrubImpl n' → RuleR (.rPLoop n) (.rPLoop n')
  | mLoopR (n n' : Node) : scrubImpl n = scrubImpl n' → RuleR (.rMLoop n) (.rMLoop n')
  | multiR (a a' : Node) (op : Token) : scrubImpl a = scrubImpl a' →
      RuleR (.rMultiArg a op) (.rMultiArg a' op)
  | multiLoopR (a a' : Node) : scrubImpl a = scrubImpl a' →
      RuleR (.rMultiArgLoop a) (.rMultiArgLoop a')
  | funcR (tok : Token) : RuleR (.rFunc tok) (.rFunc tok)
  | funcLoopR (fn fn' : Node) : scrubImpl fn = scrubImpl fn' →
      RuleR (.rFuncLoop fn) (.rFuncLoop fn')

/-- In lax mode `funcResolve` always succeeds (registry hit or synthetic). -/
theorem funcResolve_lax (reg : List (String × Func)) (tok : Token) :
    ∃ g, funcResolve ⟨reg, false⟩ tok = .ok g := by
  cases h : getFunction reg tok.V with
  | none => exact ⟨⟨tok.V, none⟩, by simp [funcResolve, h]⟩
  | some v => exact ⟨v, by simp [funcResolve, h]⟩

/-- In lax mode (`runCheck=false`) the parse result is independent of the
function registry up to descriptor scrubbing: a registry miss installs a
synthetic descriptor, a hit installs the registered one, and nothing else in
the parser reads the registry — so the tree STRUCTURE is the same as for a
known function. -/
theorem parse_lax_scrub (reg reg' : List (String × Func)) :
    ∀ (f : Nat) (r r' : Rule) (ts : List Token), RuleR r r' →
      scrubE (parse ⟨reg, false⟩ f r ts) = scrubE (parse ⟨reg', false⟩ f r' ts) := by
  intro f
  induction f with
  | zero => intro r r' ts _; rfl
  | succ f ih =>
    intro r r' ts hrr
    cases hrr with
    | oR =>
      exact scrubE_bind_congr (ih .rA .rA ts RuleR.aR)
        (fun m m' rest hmm => ih _ _ rest (RuleR.oLoopR m m' hmm))
    | aR =>
      exact scrubE_bind_congr (ih .rC .rC ts RuleR.cR)
        (fun m m' rest hmm => ih _ _ rest (RuleR.aLoopR m m' hmm))
    | cR =>
      exact scrubE_bind_congr (ih .rP .rP ts RuleR.pR)
        (fun m m' rest hmm => ih _ _ rest (RuleR.cLoopR m m' hmm))
    | pR =>
      exact scrubE_bind_congr (ih .rM .rM ts RuleR.mR)
        (fun m m' rest hmm => ih _ _ rest (RuleR.pLoopR m m' hmm))
    | mR =>
      exact scrubE_bind_congr (ih .rF .rF ts RuleR.fR)
        (fun m m' rest hmm => ih _ _ rest (RuleR.mLoopR m m' hmm))
    | oLoopR n n' hnn =>
      cases hq : (curTok ts).T <;> simp only [parse, parseStep, hq] <;>
        first
        | exact scrubE_bind_congr (ih _ _ _ RuleR.aR) (fun m m' rest hmm =>
            ih _ _ _ (RuleR.oLoopR _ _ (by simp only [scrubImpl, hnn, hmm])))
        | exact ih _ _ _ (RuleR.oLoopR n n' hnn)
        | (simp only [scrubE, hnn]; done)
    | aLoopR n n' hnn =>
      cases hq : (curTok ts).T <;> simp only [parse, parseStep, hq] <;>
        first
        | exact scrubE_bind_congr (ih _ _ _ RuleR.cR) (fun m m' rest hmm =>
            ih _ _ _ (RuleR.aLoopR _ _ (by simp only [scrubImpl, hnn, hmm])))
        | (simp only [scrubE, hnn]; done)
    | pLoopR n n' hnn =>
      cases hq : (curTok ts).T <;> simp only [parse, parseStep, hq] <;>
        first
        | exact scrubE_bind_congr (ih _ _ _ RuleR.mR) (fun m m' rest hmm =>
            ih _ _ _ (RuleR.pLoopR _ _ (by simp only [scrubImpl, hnn, hmm])))
        | (simp only [scrubE, hnn]; done)
    | mLoopR n n' hnn =>
      cases hq : (curTok ts).T <;> simp only [parse, parseStep, hq] <;>
        first
        | exact scrubE_bind_congr (ih _ _ _ RuleR.fR) (fun m m' rest hmm =>
            ih _ _ _ (RuleR.mLoopR _ _ (by simp only [scrubImpl, hnn, hmm])))
        | (simp only [scrubE, hnn]; done)
    | cLoopR n n' hnn =>
      cases hq : (curTok ts).T <;> simp only [parse, parseStep, hq] <;>
        first
        | exact scrubE_bind_congr (ih _ _ _ RuleR.pR) (fun m m' rest hmm =>
            ih _ _ _ (RuleR.cLoopR _ _ (by simp only [scrubImpl, hnn, hmm])))
        | exact scrubE_bind_congr (ih _ _ _ RuleR.pR) (fun m m' rest hmm => by
            dsimp only
            by_cases hc : (curTok rest).T = .tLogicAnd
            · simp only [if_pos hc]
              exact scrubE_bind_congr (ih _ _ _ RuleR.pR) (fun q q' rest2 hqq =>
                ih _ _ _ (RuleR.cLoopR _ _ (by
                  simp only [scrubImpl, hnn, hmm, hqq])))
            · simp only [if_neg hc, scrubE])
        | exact ih _ _ _ (RuleR.multiR n n' (curTok ts) hnn)
        | (simp only [scrubE, hnn]; done)
    | fR =>
      cases hq : (curTok ts).T <;> simp only [parse, parseStep, hq] <;>
        first
        | rfl
        | exact ih _ _ _ RuleR.vR
        | exact scrubE_bind_congr (ih _ _ _ RuleR.fR) (fun m m' rest hmm => by
            simp only [scrubE, scrubImpl, hmm])
        | exact scrubE_bind_congr (ih _ _ _ RuleR.oR) (fun m m' rest hmm => by
            dsimp only
            by_cases hc : (curTok rest).T = .tRightParenthesis
            · simp only [if_pos hc, scrubE, scrub_setParen, hmm]
            · simp only [if_neg hc, scrubE])
    | vR =>
      cases hq : (curTok ts).T <;> simp only [parse, parseStep, hq] <;>
        first
        | rfl
        | exact ih _ _ _ (RuleR.funcR (curTok ts))
        | exact scrubE_bind_congr (ih _ _ _ RuleR.oR) (fun m m' rest hmm => by
            dsimp only
            by_cases hc : (curTok (nextTs rest)).T = .tRightParenthesis
            · simp only [if_pos hc, scrubE, scrub_setParen, hmm]
            · simp only [if_neg hc, scrubE])
    | multiR a a' op haa =>
      have e1 : ∀ (rg : List (String × Func)) (b : Node),
          parse ⟨rg, false⟩ (f + 1) (.rMultiArg b op) ts =
            (if (curTok ts).T = .tLeftParenthesis then
              parse ⟨rg, false⟩ f (.rMultiArgLoop (.multiArg op [b])) (nextTs ts)
            else .error (unexpectedPanic (curTok ts) "input")) :=
        fun rg b => rfl
      rw [e1, e1]
      by_cases hc : (curTok ts).T = .tLeftParenthesis
      · rw [if_pos hc, if_pos hc]
        exact ih _ _ _ (RuleR.multiLoopR _ _ (by
          simp only [scrubImpl, scrubImplList, haa]))
      · rw [if_neg hc, if_neg hc]
    | multiLoopR a a' haa =>
      cases hq : (curTok ts).T <;> simp only [parse, parseStep, hq] <;>
        first
        | exact ih _ _ _ (RuleR.multiLoopR a a' haa)
        | exact scrubE_bind_congr (ih _ _ _ RuleR.oR) (fun m m' rest hmm =>
            ih _ _ _ (RuleR.multiLoopR _ _ (by
              rw [scrub_appendArg, scrub_appendArg, haa, hmm])))
        | (simp only [scrubE, haa]; done)
    | funcR tok =>
      have e1 : ∀ (rg : List (String × Func)) (g : Func),
          funcResolve ⟨rg, false⟩ tok = .ok g →
          parse ⟨rg, false⟩ (f + 1) (.rFunc tok) ts =
            (if (peekTok ts).T = .tLeftParenthesis then
              (if (curTok (nextTs ts)).T = .tLeftParenthesis then
                parse ⟨rg, false⟩ f
                  (.rFuncLoop (.funcNode tok.Pos tok.V g [])) (nextTs ts)
              else .error (unexpectedPanic (curTok (nextTs ts)) "func"))
            else .error (.strVal "must have left paren on function")) := by
        intro rg g hg
        have h0 : parse ⟨rg, false⟩ (f + 1) (.rFunc tok) ts =
            (if (peekTok ts).T = .tLeftParenthesis then
              (match funcResolve ⟨rg, false⟩ tok with
               | Except.error e => Except.error e
               | Except.ok funcImpl =>
                 if (curTok (nextTs ts)).T = .tLeftParenthesis then
                   parse ⟨rg, false⟩ f
                     (.rFuncLoop (.funcNode tok.Pos tok.V funcImpl [])) (nextTs ts)
                 else Except.error (unexpectedPanic (curTok (nextTs ts)) "func"))
            else Except.error (PanicValue.strVal "must have left paren on function")) := rfl
        rw [h0, hg]
      obtain ⟨ga, hga⟩ := funcResolve_lax reg tok
      obtain ⟨gb, hgb⟩ := funcResolve_lax reg' tok
      rw [e1 reg ga hga, e1 reg' gb hgb]
      by_cases hpk : (peekTok ts).T = .tLeftParenthesis
      · rw [if_pos hpk, if_pos hpk]
        by_cases hc : (curTok (nextTs ts)).T = .tLeftParenthesis
        · rw [if_pos hc, if_pos hc]
          exact ih _ _ _ (RuleR.funcLoopR _ _ (by
            simp only [scrubImpl, scrubImplList]))
        · rw [if_neg hc, if_neg hc]
      · rw [if_neg hpk, if_neg hpk]
    | funcLoopR fn fn' hff =>
      cases hq : (curTok (nextTs ts)).T <;> simp only [parse, parseStep, hq] <;>
        first
        | exact scrubE_bind_congr (ih _ _ _ RuleR.oR) (fun m m' rest hmm => by
            dsimp only
            cases hq2 : (curTok rest).T <;> simp only [hq2] <;>
              first
              | exact ih _ _ _ (RuleR.funcLoopR _ _ (by
                  rw [scrub_appendArg, scrub_appendArg, hff, hmm]))
              | exact scrubE_bind_congr (ih _ _ _ RuleR.oR) (fun q q' rest2 hqq =>
                  ih _ _ _ (RuleR.funcLoopR _ _ (by
                    rw [scrub_appendArg, scrub_appendArg, hff, hqq])))
              | (simp only [scrubE, scrub_appendArg, hff, hmm]; done)
              | rfl)
        | (simp only [scrubE, hff]; done)

set_option maxHeartbeats 2000000 in
/-- The `Func` argument loop only appends arguments: the resulting node
keeps the function node's position, name and descriptor. -/
theorem funcLoop_head (cx : ParseCtx) :
    ∀ (f pos : Nat) (nm : String) (impl : Func) (args : List Node)
      (ts : List Token) (n : Node) (rest : List Token),
      parse cx f (.rFuncLoop (.funcNode pos nm impl args)) ts = .ok (n, rest) →
      ∃ args2, n = .funcNode pos nm impl args2 := by
  intro f
  induction f with
  | zero =>
    intro pos nm impl args ts n rest h
    exact absurd h (by simp [parse])
  | succ f ih =>
    intro pos nm impl args ts n rest h
    revert h
    cases hq : (curTok (nextTs ts)).T <;> simp only [parse, parseStep, hq] <;> intro h <;>
      first
      | (simp only [Except.ok.injEq, Prod.mk.injEq] at h
         exact ⟨args, h.1.symm⟩)
      | (cases hp : parse cx f .rO (nextTs ts) with
         | error e =>
           rw [hp] at h
           exact absurd h (by simp [Except.bind])
         | ok p =>
           obtain ⟨m, ts2⟩ := p
           rw [hp] at h
           simp only [exceptBind_ok] at h
           revert h
           cases hq2 : (curTok ts2).T <;>
             simp only [Node.appendArg, hq2] <;> intro h <;>
             first
             | exact ih _ _ _ _ _ _ _ h
             | (simp only [Node.appendArg, Except.ok.injEq, Prod.mk.injEq] at h
                exact ⟨args ++ [m], h.1.symm⟩)
             | (cases hp2 : parse cx f .rO ts2 with
                | error e =>
                  rw [hp2] at h
                  exact absurd h (by simp [Except.bind])
                | ok q =>
                  obtain ⟨m2, ts3⟩ := q
                  rw [hp2] at h
                  simp only [exceptBind_ok] at h
                  exact ih _ _ _ _ _ _ _ h)
             | exact absurd h (by simp))

/-- C5: for a function call whose lower-cased name misses the registry:
strict mode fails with `expr: non existent function <name>`; lax mode
succeeds, installs the synthetic descriptor `Func{Name: token.V}` on the
resulting function node, and produces the same tree structure (up to
descriptor scrubbing) as a parse under any registry — in particular one that
knows the function. -/
theorem func_unknown (reg : List (String × Func)) (tok : Token) (ts : List Token)
    (f : Nat)
    (hlook : getFunction reg tok.V = none)
    (hpeek : (peekTok ts).T = .tLeftParenthesis) :
    parse ⟨reg, true⟩ (f + 1) (.rFunc tok) ts =
      .error (.errVal ("expr: non existent function " ++ tok.V)) ∧
    (∀ n rest, parse ⟨reg, false⟩ (f + 1) (.rFunc tok) ts = .ok (n, rest) →
      ∃ args, n = .funcNode tok.Pos tok.V ⟨tok.V, none⟩ args) ∧
    (∀ reg2 : List (String × Func),
      scrubE (parse ⟨reg, false⟩ (f + 1) (.rFunc tok) ts) =
        scrubE (parse ⟨reg2, false⟩ (f + 1) (.rFunc tok) ts)) := by
  refine ⟨?_, ?_, ?_⟩
  · have h0 : parse ⟨reg, true⟩ (f + 1) (.rFunc tok) ts =
        (if (peekTok ts).T = .tLeftParenthesis then
          (match funcResolve ⟨reg, true⟩ tok with
           | Except.error e => Except.error e
           | Except.ok funcImpl =>
             if (curTok (nextTs ts)).T = .tLeftParenthesis then
               parse ⟨reg, true⟩ f
                 (.rFuncLoop (.funcNode tok.Pos tok.V funcImpl [])) (nextTs ts)
             else Except.error (unexpectedPanic (curTok (nextTs ts)) "func"))
        else Except.error (PanicValue.strVal "must have left paren on function")) := rfl
    have hres : funcResolve ⟨reg, true⟩ tok =
        .error (.errVal ("expr: non existent function " ++ tok.V)) := by
      simp only [funcResolve, hlook, errorfPanic]
      rw [← String.append_assoc]
      rfl
    rw [h0, if_pos hpeek, hres]
  · have hres2 : funcResolve ⟨reg, false⟩ tok = .ok ⟨tok.V, none⟩ := by
      simp [funcResolve, hlook]
    have e1 : parse ⟨reg, false⟩ (f + 1) (.rFunc tok) ts =
        (if (curTok (nextTs ts)).T = .tLeftParenthesis then
          parse ⟨reg, false⟩ f
            (.rFuncLoop (.funcNode tok.Pos tok.V ⟨tok.V, none⟩ [])) (nextTs ts)
        else Except.error (unexpectedPanic (curTok (nextTs ts)) "func")) := by
      have h0 : parse ⟨reg, false⟩ (f + 1) (.rFunc tok) ts =
          (if (peekTok ts).T = .tLeftParenthesis then
            (match funcResolve ⟨reg, false⟩ tok with
             | Except.error e => Except.error e
             | Except.ok funcImpl =>
               if (curTok (nextTs ts)).T = .tLeftParenthesis then
                 parse ⟨reg, false⟩ f
                   (.rFuncLoop (.funcNode tok.Pos tok.V funcImpl [])) (nextTs ts)
               else Except.error (unexpectedPanic (curTok (nextTs ts)) "func"))
          else Except.error (PanicValue.strVal "must have left paren on function")) := rfl
      rw [h0, if_pos hpeek, hres2]
    intro n rest h
    rw [e1] at h
    by_cases hc : (curTok (nextTs ts)).T = .tLeftParenthesis
    · rw [if_pos hc] at h
      exact funcLoop_head ⟨reg, false⟩ f tok.Pos tok.V ⟨tok.V, none⟩ [] _ n rest h
    · rw [if_neg hc] at h
      exact absurd h (by simp)
  · intro reg2
    exact parse_lax_scrub reg reg2 (f + 1) _ _ ts (RuleR.funcR tok)

/-- Witness for C5 on `no_such_fn(1)` against the empty registry. -/
theorem func_unknown_witness :
    parse ⟨[], true⟩ 30
        (.rFunc ⟨.tUdfExpr, "no_such_fn", 0⟩)
        [⟨.tUdfExpr, "no_such_fn", 0⟩, ⟨.tLeftParenthesis, "(", 10⟩,
         ⟨.tInteger, "1", 11⟩, ⟨.tRightParenthesis, ")", 12⟩] =
      .error (.errVal ("expr: non existent function " ++ "no_such_fn")) ∧
    (∀ n rest, parse ⟨[], false⟩ 30
        (.rFunc ⟨.tUdfExpr, "no_such_fn", 0⟩)
        [⟨.tUdfExpr, "no_such_fn", 0⟩, ⟨.tLeftParenthesis, "(", 10⟩,
         ⟨.tInteger, "1", 11⟩, ⟨.tRightParenthesis, ")", 12⟩] = .ok (n, rest) →
      ∃ args, n = .funcNode 0 "no_such_fn" ⟨"no_such_fn", none⟩ args) ∧
    (∀ reg2 : List (String × Func),
      scrubE (parse ⟨[], false⟩ 30
        (.rFunc ⟨.tUdfExpr, "no_such_fn", 0⟩)
        [⟨.tUdfExpr, "no_such_fn", 0⟩, ⟨.tLeftParenthesis, "(", 10⟩,
         ⟨.tInteger, "1", 11⟩, ⟨.tRightParenthesis, ")", 12⟩]) =
        scrubE (parse ⟨reg2, false⟩ 30
        (.rFunc ⟨.tUdfExpr, "no_such_fn", 0⟩)
        [⟨.tUdfExpr, "no_such_fn", 0⟩, ⟨.tLeftParenthesis, "(", 10⟩,
         ⟨.tInteger, "1", 11⟩, ⟨.tRightParenthesis, ")", 12⟩])) :=
  func_unknown [] ⟨.tUdfExpr, "no_such_fn", 0⟩
    [⟨.tUdfExpr, "no_such_fn", 0⟩, ⟨.tLeftParenthesis, "(", 10⟩,
     ⟨.tInteger, "1", 11⟩, ⟨.tRightParenthesis, ")", 12⟩] 29 rfl rfl

/-- Monotone bind for success results. -/
theorem bind_ok_mono {E A B : Type} {x y : Except E A} {k1 k2 : A → Except E B} {v : B}
    (hxy : ∀ a, x = .ok a → y = .ok a)
    (hk : ∀ a, x = .ok a → k1 a = .ok v → k2 a = .ok v)
    (h : x.bind k1 = .ok v) : y.bind k2 = .ok v := by
  cases x with
  | error e => simp [Except.bind] at h
  | ok a =>
    rw [hxy a rfl]
    simp only [exceptBind_ok] at h ⊢
    exact hk a rfl h

set_option maxHeartbeats 3000000 in
/-- A parser step is monotone in the recursive call: any success of the
smaller parser is a success of the larger one. -/
theorem parseStep_mono (cx : ParseCtx)
    (rec1 rec2 : Rule → List Token → Except PanicValue (Node × List Token))
    (hmono : ∀ r ts v, rec1 r ts = .ok v → rec2 r ts = .ok v) :
    ∀ r ts v, parseStep cx rec1 r ts = .ok v → parseStep cx rec2 r ts = .ok v := by
  intro r ts v h
  cases r with
  | rO =>
    exact bind_ok_mono (fun a ha => hmono _ _ _ ha) (fun a _ hh => hmono _ _ _ hh) h
  | rA =>
    exact bind_ok_mono (fun a ha => hmono _ _ _ ha) (fun a _ hh => hmono _ _ _ hh) h
  | rC =>
    exact bind_ok_mono (fun a ha => hmono _ _ _ ha) (fun a _ hh => hmono _ _ _ hh) h
  | rP =>
    exact bind_ok_mono (fun a ha => hmono _ _ _ ha) (fun a _ hh => hmono _ _ _ hh) h
  | rM =>
    exact bind_ok_mono (fun a ha => hmono _ _ _ ha) (fun a _ hh => hmono _ _ _ hh) h
  | rOLoop n =>
    revert h
    cases hq : (curTok ts).T <;> simp only [parseStep, hq] <;> intro h <;>
      first
      | exact bind_ok_mono (fun a ha => hmono _ _ _ ha) (fun a _ hh => hmono _ _ _ hh) h
      | exact hmono _ _ _ h
      | exact h
  | rALoop n =>
    revert h
    cases hq : (curTok ts).T <;> simp only [parseStep, hq] <;> intro h <;>
      first
      | exact bind_ok_mono (fun a ha => hmono _ _ _ ha) (fun a _ hh => hmono _ _ _ hh) h
      | exact h
  | rPLoop n =>
    revert h
    cases hq : (curTok ts).T <;> simp only [parseStep, hq] <;> intro h <;>
      first
      | exact bind_ok_mono (fun a ha => hmono _ _ _ ha) (fun a _ hh => hmono _ _ _ hh) h
      | exact h
  | rMLoop n =>
    revert h
    cases hq : (curTok ts).T <;> simp only [parseStep, hq] <;> intro h <;>
      first
      | exact bind_ok_mono (fun a ha => hmono _ _ _ ha) (fun a _ hh => hmono _ _ _ hh) h
      | exact h
  | rCLoop n =>
    revert h
    cases hq : (curTok ts).T <;> simp only [parseStep, hq] <;> intro h <;>
      first
      | exact bind_ok_mono (fun a ha => hmono _ _ _ ha) (fun a _ hh => hmono _ _ _ hh) h
      | (refine bind_ok_mono (fun a ha => hmono _ _ _ ha) ?_ h
         intro a _ hh
         dsimp only at hh ⊢
         by_cases hc : (curTok a.2).T = .tLogicAnd
         · rw [if_pos hc] at hh ⊢
           exact bind_ok_mono (fun b hb => hmono _ _ _ hb)
             (fun b _ hh2 => hmono _ _ _ hh2) hh
         · rw [if_neg hc] at hh
           exact absurd hh (by simp))
      | exact hmono _ _ _ h
      | exact h
  | rF =>
    revert h
    cases hq : (curTok ts).T <;> simp only [parseStep, hq] <;> intro h <;>
      first
      | exact hmono _ _ _ h
      | exact bind_ok_mono (fun a ha => hmono _ _ _ ha) (fun a _ hh => hh) h
      | exact h
  | rV =>
    revert h
    cases hq : (curTok ts).T <;> simp only [parseStep, hq] <;> intro h <;>
      first
      | exact hmono _ _ _ h
      | exact bind_ok_mono (fun a ha => hmono _ _ _ ha) (fun a _ hh => hh) h
      | exact h
  | rMultiArg first op =>
    change (if (curTok ts).T = .tLeftParenthesis then
        rec1 (.rMultiArgLoop (.multiArg op [first])) (nextTs ts)
      else Except.error (unexpectedPanic (curTok ts) "input")) = .ok v at h
    show (if (curTok ts).T = .tLeftParenthesis then
        rec2 (.rMultiArgLoop (.multiArg op [first])) (nextTs ts)
      else Except.error (unexpectedPanic (curTok ts) "input")) = .ok v
    by_cases hc : (curTok ts).T = .tLeftParenthesis
    · rw [if_pos hc] at h ⊢
      exact hmono _ _ _ h
    · rw [if_neg hc] at h
      exact absurd h (by simp)
  | rMultiArgLoop acc =>
    revert h
    cases hq : (curTok ts).T <;> simp only [parseStep, hq] <;> intro h <;>
      first
      | exact bind_ok_mono (fun a ha => hmono _ _ _ ha) (fun a _ hh => hmono _ _ _ hh) h
      | exact hmono _ _ _ h
      | exact h
  | rFunc tok =>
    change (if (peekTok ts).T = .tLeftParenthesis then
        (match funcResolve cx tok with
         | Except.error e => Except.error e
         | Except.ok funcImpl =>
           if (curTok (nextTs ts)).T = .tLeftParenthesis then
             rec1 (.rFuncLoop (.funcNode tok.Pos tok.V funcImpl [])) (nextTs ts)
           else Except.error (unexpectedPanic (curTok (nextTs ts)) "func"))
      else Except.error (PanicValue.strVal "must have left paren on function")) = .ok v at h
    show (if (peekTok ts).T = .tLeftParenthesis then
        (match funcResolve cx tok with
         | Except.error e => Except.error e
         | Except.ok funcImpl =>
           if (curTok (nextTs ts)).T = .tLeftParenthesis then
             rec2 (.rFuncLoop (.funcNode tok.Pos tok.V funcImpl [])) (nextTs ts)
           else Except.error (unexpectedPanic (curTok (nextTs ts)) "func"))
      else Except.error (PanicValue.strVal "must have left paren on function")) = .ok v
    by_cases hpk : (peekTok ts).T = .tLeftParenthesis
    · rw [if_pos hpk] at h ⊢
      cases hg : funcResolve cx tok with
      | error e =>
        simp only [hg] at h
        exact absurd h (by simp)
      | ok g =>
        simp only [hg] at h ⊢
        by_cases hc : (curTok (nextTs ts)).T = .tLeftParenthesis
        · rw [if_pos hc] at h ⊢
          exact hmono _ _ _ h
        · rw [if_neg hc] at h
          exact absurd h (by simp)
    · rw [if_neg hpk] at h ⊢
      exact h
  | rFuncLoop fn =>
    revert h
    cases hq : (curTok (nextTs ts)).T <;> simp only [parseStep, hq] <;> intro h <;>
      first
      | (refine bind_ok_mono (fun a ha => hmono _ _ _ ha) ?_ h
         intro a _ hh
         dsimp only at hh ⊢
         revert hh
         cases hq2 : (curTok a.2).T <;> intro hh <;>
           first
           | exact hmono _ _ _ hh
           | exact bind_ok_mono (fun b hb => hmono _ _ _ hb)
               (fun b _ hh2 => hmono _ _ _ hh2) hh
           | exact hh)
      | exact h

/-- Fuel monotonicity of the parser for success results. -/
theorem parse_mono (cx : ParseCtx) :
    ∀ (f : Nat) (r : Rule) (ts : List Token) (v : Node × List Token),
      parse cx f r ts = .ok v → parse cx (f + 1) r ts = .ok v := by
  intro f
  induction f with
  | zero =>
    intro r ts v h
    exact absurd h (by simp [parse])
  | succ f ih =>
    intro r ts v h
    exact parseStep_mono cx (parse cx f) (parse cx (f + 1)) ih r ts v h

/-- Fuel monotonicity, `≤` version. -/
theorem parse_mono_le (cx : ParseCtx) {f f' : Nat} (hle : f ≤ f') :
    ∀ (r : Rule) (ts : List Token) (v : Node × List Token),
      parse cx f r ts = .ok v → parse cx f' r ts = .ok v := by
  induction hle with
  | refl => exact fun r ts v h => h
  | step hle2 ih =>
    intro r ts v h
    exact parse_mono cx _ r ts v (ih r ts v h)

/-! ### Emission (round trip, C2)

The node `String()`/`WriteDialect` implementations are not under src/, and
the lexer is an external collaborator, so emission is modelled from the spec
at the token level: `emit` produces the token stream the written text lexes
to.  Delimiter tokens fabricated by emission are never stored in nodes, so
their `V`/`Pos` never influence tree equality. -/

/-- Fabricated left-paren token. -/
def lparenTok : Token := ⟨.tLeftParenthesis, "(", 0⟩

/-- Fabricated right-paren token. -/
def rparenTok : Token := ⟨.tRightParenthesis, ")", 0⟩

/-- Fabricated comma token. -/
def commaTok : Token := ⟨.tComma, ",", 0⟩

/-- Fabricated AND delimiter of a re-emitted BETWEEN. -/
def andTok : Token := ⟨.tLogicAnd, "AND", 0⟩

mutual
/-- Modelled from the spec: token-level emission of a tree (`Tree.String` /
`Node.WriteDialect`, whose implementation file is not under src/).  The
spec's re-emission examples fix the layout: stored operator tokens in infix
position, parens around a paren-flagged binary, `e1 BETWEEN e2 AND e3`,
`first IN (a, b, c)`, `name(a, b)`; numbers, strings and identities re-emit
their stored text. -/
def emit : Node → List Token
  | .number pos text => [⟨.tInteger, text, pos⟩]
  | .str pos v => [⟨.tValue, v, pos⟩]
  | .identity pos v => [⟨.tIdentity, v, pos⟩]
  | .unary op c => op :: emit c
  | .binary op paren l r =>
    if paren then lparenTok :: (emit l ++ op :: emit r) ++ [rparenTok]
    else emit l ++ op :: emit r
  | .tri op a b c => emit a ++ op :: (emit b ++ andTok :: emit c)
  | .multiArg op args =>
    match args with
    | [] => [op, lparenTok, rparenTok]
    | first :: rest => emit first ++ op :: lparenTok :: (emitArgs rest ++ [rparenTok])
  | .funcNode pos name _ args =>
    ⟨.tUdfExpr, name, pos⟩ :: lparenTok :: (emitArgs args ++ [rparenTok])

/-- Comma-separated emission of an argument list. -/
def emitArgs : List Node → List Token
  | [] => []
  | [n] => emit n
  | n :: rest => emit n ++ commaTok :: emitArgs rest
end

mutual
/-- Node size; the paren flag counts, so that unwrapping a parenthesised
binary strictly decreases. -/
def nsize : Node → Nat
  | .number _ _ => 1
  | .str _ _ => 1
  | .identity _ _ => 1
  | .unary _ c => 1 + nsize c
  | .binary _ paren l r => 1 + (if paren then 1 else 0) + nsize l + nsize r
  | .tri _ a b c => 1 + nsize a + nsize b + nsize c
  | .multiArg _ args => 1 + nsizeList args
  | .funcNode _ _ _ args => 1 + nsizeList args

/-- Size of a node list. -/
def nsizeList : List Node → Nat
  | [] => 0
  | n :: rest => nsize n + nsizeList rest
end

/-- The grammar level at which the parser builds a binary node with this
operator (2 = M, 3 = P, 4 = C, 5 = A, 6 = O; 0 = never built). -/
def binLevel : TokenType → Nat
  | .tStar | .tMultiply | .tDivide | .tModulus => 2
  | .tPlus | .tMinus => 3
  | .tEqual | .tEqualEqual | .tNE | .tGT | .tGE | .tLE | .tLT | .tLike => 4
  | .tLogicAnd | .tAnd => 5
  | .tLogicOr | .tOr => 6
  | _ => 0

/-- Does the loop at the given level consume this token? -/
def contAt (lvl : Nat) (t : Token) : Bool :=
  (binLevel t.T == lvl) || (lvl == 4 && (t.T == .tBetween || t.T == .tIN)) ||
    (lvl == 6 && t.T == .tCommentSingleLine)

/-- The token stops every loop at level ≤ lvl (so a parse at that level
returns in front of it). -/
def stopAt : Nat → Token → Bool
  | 0, _ => true
  | lvl + 1, t => stopAt lvl t && !contAt (lvl + 1) t

/-- Is the top constructor a `MultiArg`?  (The C level returns immediately
after building one, so it cannot be the left operand of a further C step.) -/
def isMultiTop : Node → Bool
  | .multiArg _ _ => true
  | _ => false

/-- Would the parser's descriptor resolution produce exactly this `impl` for
this name? -/
def resolvesTo (cx : ParseCtx) (name : String) (impl : Func) : Bool :=
  match getFunction cx.funcs name with
  | some v => decide (v = impl)
  | none => !cx.runCheck && decide (impl = ⟨name, none⟩)

mutual
/-- Round-trippable trees at a grammar level: the emission of such a tree
re-parses to the same tree at that level.  This is precisely the parser's
output shape MINUS the trees whose parenthesised grouping the emission
cannot reproduce (a parenthesised `Tri`/`MultiArg` carries no paren flag —
only `*BinaryNode` does — so such groups are excluded wherever their level
exceeds the context's). -/
def emitOK (cx : ParseCtx) : Node → Nat → Bool
  | .number _ text, lvl => decide (1 ≤ lvl) && validNumber text
  | .str _ _, lvl => decide (1 ≤ lvl)
  | .identity _ _, lvl => decide (1 ≤ lvl)
  | .unary op c, lvl =>
    decide (1 ≤ lvl) && (op.T == .tNegate || op.T == .tMinus) && emitOK cx c 1
  | .binary op paren l r, lvl =>
    (if paren then decide (1 ≤ lvl) else decide (binLevel op.T ≤ lvl)) &&
    decide (2 ≤ binLevel op.T) &&
    (!(binLevel op.T == 4) || !isMultiTop l) &&
    emitOK cx l (binLevel op.T) && emitOK cx r (binLevel op.T - 1)
  | .tri op a b c, lvl =>
    decide (4 ≤ lvl) && (op.T == .tBetween) && !isMultiTop a &&
    emitOK cx a 4 && emitOK cx b 3 && emitOK cx c 3
  | .multiArg op args, lvl =>
    match args with
    | [] => false
    | first :: rest =>
      decide (4 ≤ lvl) && (op.T == .tIN) && !isMultiTop first &&
      emitOK cx first 4 && emitOKList cx rest
  | .funcNode _ name impl args, lvl =>
    decide (1 ≤ lvl) && resolvesTo cx name impl && emitOKList cx args

/-- All elements round-trippable at the O level. -/
def emitOKList (cx : ParseCtx) : List Node → Bool
  | [] => true
  | n :: rest => emitOK cx n 6 && emitOKList cx rest
end

/-- The entry rule of each grammar level. -/
def levelRule : Nat → Rule
  | 1 => .rF
  | 2 => .rM
  | 3 => .rP
  | 4 => .rC
  | 5 => .rA
  | _ => .rO

/-- Left spine of non-parenthesised binaries at one level (used for levels
2, 3, 5, 6). -/
def spineB (lvl : Nat) : Node → Node × List (Token × Node)
  | .binary op false l r =>
    if binLevel op.T = lvl then
      ((spineB lvl l).1, (spineB lvl l).2 ++ [(op, r)])
    else (.binary op false l r, [])
  | n => (n, [])

/-- Tokens of a binary chain: operator, then the chunk's emission. -/
def chainToks : List (Token × Node) → List Token
  | [] => []
  | (op, m) :: rest => op :: emit m ++ chainToks rest

/-- One step of the C-level loop: a comparison or a BETWEEN. -/
inductive C4Step where
  | sBin (op : Token) (m : Node)
  | sBtw (op : Token) (b c : Node)

/-- Tokens of a C-level chain. -/
def c4Toks : List C4Step → List Token
  | [] => []
  | (C4Step.sBin op m) :: rest => op :: emit m ++ c4Toks rest
  | (C4Step.sBtw op b c) :: rest => op :: (emit b ++ andTok :: emit c) ++ c4Toks rest

/-- Tokens of an optional trailing `IN (…)`. -/
def c4FinToks : Option (Token × List Node) → List Token
  | none => []
  | some (op, elems) => op :: lparenTok :: (emitArgs elems ++ [rparenTok])

/-- Rebuild a node from an accumulator and a C-level chain. -/
def c4Fold (acc : Node) : List C4Step → Node
  | [] => acc
  | (C4Step.sBin op m) :: rest => c4Fold (.binary op false acc m) rest
  | (C4Step.sBtw op b c) :: rest => c4Fold (.tri op acc b c) rest

/-- Attach the optional trailing `IN (…)`. -/
def c4Fin (m : Node) : Option (Token × List Node) → Node
  | none => m
  | some (op, elems) => .multiArg op (m :: elems)

/-- Left spine at the C level: comparisons and BETWEENs, with an optional
trailing IN. -/
def spine4 : Node → Node × List C4Step × Option (Token × List Node)
  | .binary op false l r =>
    if binLevel op.T = 4 then
      ((spine4 l).1, (spine4 l).2.1 ++ [C4Step.sBin op r], none)
    else (.binary op false l r, [], none)
  | .tri op a b c => ((spine4 a).1, (spine4 a).2.1 ++ [C4Step.sBtw op b c], none)
  | .multiArg op args =>
    match args with
    | [] => (.multiArg op [], [], none)
    | first :: rest => ((spine4 first).1, (spine4 first).2.1, some (op, rest))
  | n => (n, [], none)

/-! ### Stopper and level facts -/

/-- Every node list has nonnegative size; every node has positive size. -/
theorem nsize_pos (n : Node) : 1 ≤ nsize n := by
  cases n <;> simp [nsize] <;> omega

/-- No loop runs at level 1, so every token stops there. -/
theorem stopAt_one (t : Token) : stopAt 1 t = true := by
  rcases t with ⟨tt, v, p⟩
  cases tt <;> rfl

/-- Stopping at a level implies stopping one below. -/
theorem stopAt_succ_imp {l : Nat} {t : Token} (h : stopAt (l + 1) t = true) :
    stopAt l t = true := by
  simp only [stopAt, Bool.and_eq_true] at h
  exact h.1

/-- Stopping is downward closed in the level. -/
theorem stopAt_le {a b : Nat} (hab : a ≤ b) (t : Token)
    (h : stopAt b t = true) : stopAt a t = true := by
  induction b with
  | zero =>
    have : a = 0 := Nat.le_zero.mp hab
    subst this; exact h
  | succ b ih =>
    rcases Nat.lt_or_ge a (b + 1) with hlt | hge
    · exact ih (Nat.lt_succ_iff.mp hlt) (stopAt_succ_imp h)
    · have : a = b + 1 := Nat.le_antisymm hab hge
      subst this; exact h

/-- A binary operator token stops every level below its own. -/
theorem stop_pred_bin (t : Token) (h : 2 ≤ binLevel t.T) :
    stopAt (binLevel t.T - 1) t = true := by
  rcases t with ⟨tt, v, p⟩
  cases tt <;> first
    | rfl
    | exact absurd h (by decide)

/-- BETWEEN stops levels up to 3. -/
theorem stop3_btw (v : String) (p : Nat) : stopAt 3 ⟨.tBetween, v, p⟩ = true := rfl

/-- IN stops levels up to 3. -/
theorem stop3_in (v : String) (p : Nat) : stopAt 3 ⟨.tIN, v, p⟩ = true := rfl

/-- The fabricated AND delimiter stops levels up to 4. -/
theorem stop4_and : stopAt 4 andTok = true := rfl

/-- A comma stops every level. -/
theorem stop6_comma : stopAt 6 commaTok = true := rfl

/-- A right paren stops every level. -/
theorem stop6_rparen : stopAt 6 rparenTok = true := rfl

/-- EOF stops every level. -/
theorem stop6_eof : stopAt 6 eofTok = true := rfl

/-- The level-2 operators. -/
theorem binLevel2_cases (tt : TokenType) (h : binLevel tt = 2) :
    tt = .tStar ∨ tt = .tMultiply ∨ tt = .tDivide ∨ tt = .tModulus := by
  cases tt <;> simp_all [binLevel]

/-- The level-3 operators. -/
theorem binLevel3_cases (tt : TokenType) (h : binLevel tt = 3) :
    tt = .tPlus ∨ tt = .tMinus := by
  cases tt <;> simp_all [binLevel]

/-- The level-4 operators. -/
theorem binLevel4_cases (tt : TokenType) (h : binLevel tt = 4) :
    tt = .tEqual ∨ tt = .tEqualEqual ∨ tt = .tNE ∨ tt = .tGT ∨ tt = .tGE ∨
      tt = .tLE ∨ tt = .tLT ∨ tt = .tLike := by
  cases tt <;> simp_all [binLevel]

/-- The level-5 operators. -/
theorem binLevel5_cases (tt : TokenType) (h : binLevel tt = 5) :
    tt = .tLogicAnd ∨ tt = .tAnd := by
  cases tt <;> simp_all [binLevel]

/-- The level-6 operators. -/
theorem binLevel6_cases (tt : TokenType) (h : binLevel tt = 6) :
    tt = .tLogicOr ∨ tt = .tOr := by
  cases tt <;> simp_all [binLevel]

/-- Token types an emission can start with; none of them terminates any of
the argument loops. -/
def safeHead : TokenType → Bool
  | .tInteger | .tValue | .tIdentity | .tNegate | .tMinus
  | .tLeftParenthesis | .tUdfExpr => true
  | _ => false

/-- Enumeration of the safe head types. -/
theorem safeHead_cases (tt : TokenType) (h : safeHead tt = true) :
    tt = .tInteger ∨ tt = .tValue ∨ tt = .tIdentity ∨ tt = .tNegate ∨
      tt = .tMinus ∨ tt = .tLeftParenthesis ∨ tt = .tUdfExpr := by
  cases tt <;> simp_all [safeHead]

/-- The emission of a round-trippable node is nonempty and starts with a
safe token type. -/
theorem emit_head (cx : ParseCtx) : ∀ (k : Nat) (n : Node) (lvl : Nat),
    nsize n ≤ k → emitOK cx n lvl = true →
    ∃ t ts2, emit n = t :: ts2 ∧ safeHead t.T = true := by
  intro k
  induction k with
  | zero =>
    intro n lvl hk _
    exact absurd (Nat.le_trans (nsize_pos n) hk) (by decide)
  | succ k ih =>
    intro n lvl hk hok
    cases n with
    | number pos text => exact ⟨_, _, rfl, rfl⟩
    | str pos v => exact ⟨_, _, rfl, rfl⟩
    | identity pos v => exact ⟨_, _, rfl, rfl⟩
    | unary op c =>
      simp only [emitOK, Bool.and_eq_true, Bool.or_eq_true, beq_iff_eq] at hok
      rcases hok.1.2 with h | h <;>
        exact ⟨op, emit c, rfl, by rw [h]; rfl⟩
    | binary op paren l r =>
      cases paren with
      | true => exact ⟨_, _, rfl, rfl⟩
      | false =>
        simp only [emitOK, if_false, Bool.and_eq_true, decide_eq_true_eq] at hok
        have hl : nsize l ≤ k := by
          have := nsize_pos r
          simp only [nsize] at hk
          omega
        obtain ⟨t, ts2, he, hs⟩ := ih l (binLevel op.T) hl hok.1.2
        refine ⟨t, ts2 ++ op :: emit r, ?_, hs⟩
        simp [emit, he, List.cons_append]
    | tri op a b c =>
      simp only [emitOK, Bool.and_eq_true] at hok
      have ha : nsize a ≤ k := by
        have := nsize_pos b
        have := nsize_pos c
        simp only [nsize] at hk
        omega
      obtain ⟨t, ts2, he, hs⟩ := ih a 4 ha hok.1.1.2
      refine ⟨t, ts2 ++ op :: (emit b ++ andTok :: emit c), ?_, hs⟩
      simp only [emit, he, List.cons_append]
    | multiArg op args =>
      cases args with
      | nil => exact absurd hok (by simp [emitOK])
      | cons first rest =>
        simp only [emitOK, Bool.and_eq_true] at hok
        have hf : nsize first ≤ k := by
          have := nsizeList rest
          simp only [nsize, nsizeList] at hk
          omega
        obtain ⟨t, ts2, he, hs⟩ := ih first 4 hf hok.1.2
        refine ⟨t, ts2 ++ op :: lparenTok :: (emitArgs rest ++ [rparenTok]), ?_, hs⟩
        simp only [emit, he, List.cons_append]
    | funcNode pos name impl args => exact ⟨_, _, rfl, rfl⟩

/-! ### Chain/spine decompositions -/

/-- Chain tokens split over append. -/
theorem chainToks_append (xs ys : List (Token × Node)) :
    chainToks (xs ++ ys) = chainToks xs ++ chainToks ys := by
  induction xs with
  | nil => rfl
  | cons pr xs ih =>
    obtain ⟨op, m⟩ := pr
    simp only [List.cons_append, chainToks, List.append_eq, ih, List.append_assoc]

/-- C-chain tokens split over append. -/
theorem c4Toks_append (xs ys : List C4Step) :
    c4Toks (xs ++ ys) = c4Toks xs ++ c4Toks ys := by
  induction xs with
  | nil => rfl
  | cons st xs ih =>
    cases st <;>
      simp only [List.cons_append, c4Toks, List.append_eq, ih, List.append_assoc]

/-- C-chain rebuilding splits over append. -/
theorem c4Fold_append (xs ys : List C4Step) :
    ∀ acc, c4Fold acc (xs ++ ys) = c4Fold (c4Fold acc xs) ys := by
  induction xs with
  | nil => intro acc; rfl
  | cons st xs ih =>
    intro acc
    cases st <;> simp only [List.cons_append, c4Fold, List.append_eq, ih]

/-- The spine of a node that is not a chain binary is trivial. -/
theorem spineB_other (lvl : Nat) (n : Node)
    (h : ∀ op l r, n = Node.binary op false l r → binLevel op.T ≠ lvl) :
    spineB lvl n = (n, []) := by
  cases n with
  | binary op paren l r =>
    cases paren with
    | true => rfl
    | false => simp only [spineB, if_neg (h op l r rfl)]
  | _ => rfl

/-- Folding the spine at a level rebuilds the node. -/
theorem spineB_fold (lvl : Nat) : ∀ (k : Nat) (n : Node), nsize n ≤ k →
    List.foldl (fun a pr => Node.binary pr.1 false a pr.2)
      (spineB lvl n).1 (spineB lvl n).2 = n := by
  intro k
  induction k with
  | zero =>
    intro n hk
    exact absurd (Nat.le_trans (nsize_pos n) hk) (by decide)
  | succ k ih =>
    intro n hk
    cases n with
    | binary op paren l r =>
      cases paren with
      | true => rfl
      | false =>
        by_cases hb : binLevel op.T = lvl
        · have hl : nsize l ≤ k := by
            have := nsize_pos r
            simp only [nsize] at hk
            omega
          simp only [spineB, if_pos hb, List.foldl_append, ih l hl, List.foldl]
        · simp only [spineB, if_neg hb, List.foldl]
    | _ => rfl

/-- The emission of a node is the emission of its spine head followed by the
chain tokens. -/
theorem spineB_emit (lvl : Nat) : ∀ (k : Nat) (n : Node), nsize n ≤ k →
    emit n = emit (spineB lvl n).1 ++ chainToks (spineB lvl n).2 := by
  intro k
  induction k with
  | zero =>
    intro n hk
    exact absurd (Nat.le_trans (nsize_pos n) hk) (by decide)
  | succ k ih =>
    intro n hk
    cases n with
    | binary op paren l r =>
      cases paren with
      | true => simp [spineB, chainToks]
      | false =>
        by_cases hb : binLevel op.T = lvl
        · have hl : nsize l ≤ k := by
            have := nsize_pos r
            simp only [nsize] at hk
            omega
          simp only [spineB, if_pos hb, chainToks_append, chainToks]
          conv =>
            lhs
            rw [show emit (Node.binary op false l r) = emit l ++ op :: emit r from rfl]
          rw [ih l hl]
          simp [List.append_assoc]
        · simp only [spineB, if_neg hb, chainToks, List.append_nil]
    | _ => simp [spineB, chainToks]

/-- Sizes along the spine are bounded by the size of the node. -/
theorem spineB_size (lvl : Nat) : ∀ (k : Nat) (n : Node), nsize n ≤ k →
    nsize (spineB lvl n).1 ≤ nsize n ∧
      ∀ pr ∈ (spineB lvl n).2, nsize pr.2 ≤ nsize n := by
  intro k
  induction k with
  | zero =>
    intro n hk
    exact absurd (Nat.le_trans (nsize_pos n) hk) (by decide)
  | succ k ih =>
    intro n hk
    cases n with
    | binary op paren l r =>
      cases paren with
      | true =>
        refine ⟨Nat.le_refl _, ?_⟩
        intro pr hpr
        simp only [spineB, List.not_mem_nil] at hpr
      | false =>
        by_cases hb : binLevel op.T = lvl
        · have hl : nsize l ≤ k := by
            have := nsize_pos r
            simp only [nsize] at hk
            omega
          simp only [spineB, if_pos hb]
          constructor
          · refine Nat.le_trans (ih l hl).1 ?_
            simp only [nsize]; omega
          · intro pr hpr
            rcases List.mem_append.mp hpr with h | h
            · refine Nat.le_trans ((ih l hl).2 pr h) ?_
              simp only [nsize]; omega
            · rcases List.mem_singleton.mp h with rfl
              simp only [nsize]; omega
        · simp only [spineB, if_neg hb]
          refine ⟨Nat.le_refl _, ?_⟩
          intro pr hpr
          simp only [List.not_mem_nil] at hpr
    | _ =>
      refine ⟨Nat.le_refl _, ?_⟩
      intro pr hpr
      simp only [spineB, List.not_mem_nil] at hpr

/-- Membership bound for list sizes. -/
theorem nsizeList_mem {a : Node} : ∀ {args : List Node}, a ∈ args →
    nsize a ≤ nsizeList args := by
  intro args
  induction args with
  | nil => intro h; exact absurd h (List.not_mem_nil a)
  | cons b rest ih =>
    intro h
    rcases List.mem_cons.mp h with rfl | h
    · simp only [nsizeList]; omega
    · have := ih h
      have := nsize_pos b
      simp only [nsizeList]; omega

/-- Elements of a round-trippable list are round-trippable at the O level. -/
theorem emitOKList_mem (cx : ParseCtx) {a : Node} : ∀ {args : List Node},
    emitOKList cx args = true → a ∈ args → emitOK cx a 6 = true := by
  intro args
  induction args with
  | nil => intro _ h; exact absurd h (List.not_mem_nil a)
  | cons b rest ih =>
    intro hok h
    simp only [emitOKList, Bool.and_eq_true] at hok
    rcases List.mem_cons.mp h with rfl | h
    · exact hok.1
    · exact ih hok.2 h

/-- Round-trippability of the spine head and chunks at one level down. -/
theorem spineB_ok (cx : ParseCtx) (lvl : Nat)
    (hl : lvl = 2 ∨ lvl = 3 ∨ lvl = 5 ∨ lvl = 6) :
    ∀ (k : Nat) (n : Node), nsize n ≤ k → emitOK cx n lvl = true →
    emitOK cx (spineB lvl n).1 (lvl - 1) = true ∧
      ∀ pr ∈ (spineB lvl n).2,
        binLevel pr.1.T = lvl ∧ emitOK cx pr.2 (lvl - 1) = true := by
  have h2 : 2 ≤ lvl := by rcases hl with rfl | rfl | rfl | rfl <;> decide
  have h4 : 4 ≤ lvl → 4 ≤ lvl - 1 := by
    rcases hl with rfl | rfl | rfl | rfl <;> decide
  intro k
  induction k with
  | zero =>
    intro n hk
    exact absurd (Nat.le_trans (nsize_pos n) hk) (by decide)
  | succ k ih =>
    intro n hk hok
    cases n with
    | number pos text =>
      refine ⟨?_, fun pr hpr => absurd hpr (List.not_mem_nil pr)⟩
      simp only [emitOK, Bool.and_eq_true, decide_eq_true_eq] at hok ⊢
      exact ⟨by omega, hok.2⟩
    | str pos v =>
      refine ⟨?_, fun pr hpr => absurd hpr (List.not_mem_nil pr)⟩
      simp only [emitOK, decide_eq_true_eq] at hok ⊢
      omega
    | identity pos v =>
      refine ⟨?_, fun pr hpr => absurd hpr (List.not_mem_nil pr)⟩
      simp only [emitOK, decide_eq_true_eq] at hok ⊢
      omega
    | unary op c =>
      refine ⟨?_, fun pr hpr => absurd hpr (List.not_mem_nil pr)⟩
      simp only [emitOK, Bool.and_eq_true, decide_eq_true_eq] at hok ⊢
      exact ⟨⟨by omega, hok.1.2⟩, hok.2⟩
    | funcNode pos name impl args =>
      refine ⟨?_, fun pr hpr => absurd hpr (List.not_mem_nil pr)⟩
      simp only [emitOK, Bool.and_eq_true, decide_eq_true_eq] at hok ⊢
      exact ⟨⟨by omega, hok.1.2⟩, hok.2⟩
    | tri op a b c =>
      refine ⟨?_, fun pr hpr => absurd hpr (List.not_mem_nil pr)⟩
      simp only [emitOK, Bool.and_eq_true, decide_eq_true_eq] at hok ⊢
      exact ⟨⟨⟨⟨⟨h4 hok.1.1.1.1.1, hok.1.1.1.1.2⟩, hok.1.1.1.2⟩, hok.1.1.2⟩,
        hok.1.2⟩, hok.2⟩
    | multiArg op args =>
      cases args with
      | nil => exact absurd hok (by simp [emitOK])
      | cons first rest =>
        refine ⟨?_, fun pr hpr => absurd hpr (List.not_mem_nil pr)⟩
        simp only [emitOK, Bool.and_eq_true, decide_eq_true_eq] at hok ⊢
        exact ⟨⟨⟨⟨h4 hok.1.1.1.1, hok.1.1.1.2⟩, hok.1.1.2⟩, hok.1.2⟩, hok.2⟩
    | binary op paren l r =>
      cases paren with
      | true =>
        refine ⟨?_, fun pr hpr => absurd hpr (List.not_mem_nil pr)⟩
        simp only [emitOK, if_true, Bool.and_eq_true, decide_eq_true_eq] at hok ⊢
        exact ⟨⟨⟨⟨by omega, hok.1.1.1.2⟩, hok.1.1.2⟩, hok.1.2⟩, hok.2⟩
      | false =>
        simp only [emitOK, Bool.false_eq_true, if_false, Bool.and_eq_true,
          decide_eq_true_eq] at hok
        by_cases hb : binLevel op.T = lvl
        · have hll : nsize l ≤ k := by
            have := nsize_pos r
            simp only [nsize] at hk
            omega
          have hokl : emitOK cx l lvl = true := by rw [← hb]; exact hok.1.2
          obtain ⟨ihh, ihm⟩ := ih l hll hokl
          simp only [spineB, if_pos hb]
          refine ⟨ihh, ?_⟩
          intro pr hpr
          rcases List.mem_append.mp hpr with h | h
          · exact ihm pr h
          · rcases List.mem_singleton.mp h with rfl
            refine ⟨hb, ?_⟩
            rw [← hb]; exact hok.2
        · simp only [spineB, if_neg hb]
          refine ⟨?_, fun pr hpr => absurd hpr (List.not_mem_nil pr)⟩
          simp only [emitOK, Bool.false_eq_true, if_false, Bool.and_eq_true,
            decide_eq_true_eq]
          have hle : binLevel op.T ≤ lvl := hok.1.1.1.1
          exact ⟨⟨⟨⟨by omega, hok.1.1.1.2⟩, hok.1.1.2⟩, hok.1.2⟩, hok.2⟩

/-- The C-level spine of a node without a top-level `MultiArg` has no
trailing IN. -/
theorem spine4_fin_none (n : Node) (h : isMultiTop n = false) :
    (spine4 n).2.2 = none := by
  cases n with
  | binary op paren l r =>
    cases paren with
    | true => rfl
    | false =>
      by_cases hb : binLevel op.T = 4 <;> simp [spine4, hb]
  | tri op a b c => simp [spine4]
  | multiArg op args => exact absurd h (by simp [isMultiTop])
  | _ => rfl

/-- Well-formedness of one C-level chain step, sizes bounded. -/
def c4StepOK (cx : ParseCtx) (bound : Nat) : C4Step → Prop
  | .sBin op m => binLevel op.T = 4 ∧ emitOK cx m 3 = true ∧ nsize m ≤ bound
  | .sBtw op b c => op.T = .tBetween ∧ emitOK cx b 3 = true ∧
      emitOK cx c 3 = true ∧ nsize b ≤ bound ∧ nsize c ≤ bound

/-- Step well-formedness is monotone in the size bound. -/
theorem c4StepOK_mono (cx : ParseCtx) {b1 b2 : Nat} (h : b1 ≤ b2)
    {st : C4Step} (hst : c4StepOK cx b1 st) : c4StepOK cx b2 st := by
  cases st with
  | sBin op m => exact ⟨hst.1, hst.2.1, Nat.le_trans hst.2.2 h⟩
  | sBtw op b c =>
    exact ⟨hst.1, hst.2.1, hst.2.2.1, Nat.le_trans hst.2.2.2.1 h,
      Nat.le_trans hst.2.2.2.2 h⟩

/-- All facts about the C-level spine of a round-trippable node: rebuilding,
emission split, head well-formedness at level 3, step well-formedness,
trailing-IN well-formedness, head size. -/
theorem spine4_all (cx : ParseCtx) : ∀ (k : Nat) (n : Node), nsize n ≤ k →
    emitOK cx n 4 = true →
    c4Fin (c4Fold (spine4 n).1 (spine4 n).2.1) (spine4 n).2.2 = n ∧
    emit n = emit (spine4 n).1 ++ c4Toks (spine4 n).2.1 ++
      c4FinToks (spine4 n).2.2 ∧
    emitOK cx (spine4 n).1 3 = true ∧
    (∀ st ∈ (spine4 n).2.1, c4StepOK cx (nsize n) st) ∧
    (∀ op elems, (spine4 n).2.2 = some (op, elems) →
      op.T = .tIN ∧ emitOKList cx elems = true ∧
        ∀ e ∈ elems, nsize e < nsize n) ∧
    nsize (spine4 n).1 ≤ nsize n := by
  intro k
  induction k with
  | zero =>
    intro n hk
    exact absurd (Nat.le_trans (nsize_pos n) hk) (by decide)
  | succ k ih =>
    intro n hk hok
    cases n with
    | number pos text =>
      exact ⟨rfl, by simp [spine4, c4Toks, c4FinToks], by
        simp only [emitOK, Bool.and_eq_true, decide_eq_true_eq] at hok ⊢
        exact ⟨by omega, hok.2⟩,
        fun st hst => absurd hst (List.not_mem_nil st),
        fun op elems h => by simp [spine4] at h, Nat.le_refl _⟩
    | str pos v =>
      exact ⟨rfl, by simp [spine4, c4Toks, c4FinToks], by
        simp only [emitOK, decide_eq_true_eq] at hok ⊢; omega,
        fun st hst => absurd hst (List.not_mem_nil st),
        fun op elems h => by simp [spine4] at h, Nat.le_refl _⟩
    | identity pos v =>
      exact ⟨rfl, by simp [spine4, c4Toks, c4FinToks], by
        simp only [emitOK, decide_eq_true_eq] at hok ⊢; omega,
        fun st hst => absurd hst (List.not_mem_nil st),
        fun op elems h => by simp [spine4] at h, Nat.le_refl _⟩
    | unary op c =>
      exact ⟨rfl, by simp [spine4, c4Toks, c4FinToks], by
        simp only [emitOK, Bool.and_eq_true, decide_eq_true_eq] at hok ⊢
        exact ⟨⟨by omega, hok.1.2⟩, hok.2⟩,
        fun st hst => absurd hst (List.not_mem_nil st),
        fun op2 elems h => by simp [spine4] at h, Nat.le_refl _⟩
    | funcNode pos name impl args =>
      exact ⟨rfl, by simp [spine4, c4Toks, c4FinToks], by
        simp only [emitOK, Bool.and_eq_true, decide_eq_true_eq] at hok ⊢
        exact ⟨⟨by omega, hok.1.2⟩, hok.2⟩,
        fun st hst => absurd hst (List.not_mem_nil st),
        fun op elems h => by simp [spine4] at h, Nat.le_refl _⟩
    | tri op a b c =>
      simp only [emitOK, Bool.and_eq_true, decide_eq_true_eq, beq_iff_eq,
        Bool.not_eq_eq_eq_not, Bool.not_true] at hok
      obtain ⟨⟨⟨⟨⟨_, hop⟩, hga⟩, ha⟩, hb⟩, hc⟩ := hok
      have hka : nsize a ≤ k := by
        have := nsize_pos b
        have := nsize_pos c
        simp only [nsize] at hk
        omega
      obtain ⟨ihF, ihE, ihH, ihS, ihFin, ihSz⟩ := ih a hka ha
      have hfa : (spine4 a).2.2 = none := spine4_fin_none a hga
      simp only [spine4]
      refine ⟨?_, ?_, ihH, ?_, ?_, ?_⟩
      · rw [hfa] at ihF
        simp only [c4Fin] at ihF
        simp only [c4Fin, c4Fold_append, ihF, c4Fold]
      · rw [hfa] at ihE
        simp only [c4FinToks, List.append_nil] at ihE
        simp only [emit, c4Toks_append, c4Toks, c4FinToks, List.append_nil]
        rw [ihE]
        simp [List.append_assoc]
      · intro st hst
        rcases List.mem_append.mp hst with h | h
        · refine c4StepOK_mono cx ?_ (ihS st h)
          simp only [nsize]; omega
        · rcases List.mem_singleton.mp h with rfl
          refine ⟨hop, hb, hc, ?_, ?_⟩ <;> (simp only [nsize]; omega)
      · intro op2 elems h
        exact absurd h (by simp)
      · refine Nat.le_trans ihSz ?_
        simp only [nsize]; omega
    | multiArg op args =>
      cases args with
      | nil => exact absurd hok (by simp [emitOK])
      | cons first rest =>
        simp only [emitOK, Bool.and_eq_true, decide_eq_true_eq, beq_iff_eq,
          Bool.not_eq_eq_eq_not, Bool.not_true] at hok
        obtain ⟨⟨⟨⟨_, hop⟩, hgf⟩, hf⟩, hrest⟩ := hok
        have hkf : nsize first ≤ k := by
          simp only [nsize, nsizeList] at hk
          omega
        obtain ⟨ihF, ihE, ihH, ihS, ihFin, ihSz⟩ := ih first hkf hf
        have hff : (spine4 first).2.2 = none := spine4_fin_none first hgf
        simp only [spine4]
        refine ⟨?_, ?_, ihH, ?_, ?_, ?_⟩
        · rw [hff] at ihF
          simp only [c4Fin] at ihF
          simp only [c4Fin, ihF]
        · rw [hff] at ihE
          simp only [c4FinToks, List.append_nil] at ihE
          simp only [emit, c4FinToks]
          rw [ihE]
        · intro st hst
          refine c4StepOK_mono cx ?_ (ihS st hst)
          simp only [nsize]
          have := nsizeList_mem (List.mem_cons_self first rest)
          simp only [nsizeList]
          omega
        · intro op2 elems h
          injection h with h2
          rw [Prod.mk.injEq] at h2
          obtain ⟨rfl, rfl⟩ := h2
          refine ⟨hop, hrest, ?_⟩
          intro e he
          have h1 := nsizeList_mem he
          have h2 := nsize_pos first
          simp only [nsize, nsizeList]
          omega
        · refine Nat.le_trans ihSz ?_
          simp only [nsize, nsizeList]
          omega
    | binary op2 paren l r =>
      cases paren with
      | true =>
        refine ⟨rfl, by simp [spine4, c4Toks, c4FinToks], ?_,
          fun st hst => absurd hst (List.not_mem_nil st),
          fun op elems h => by simp [spine4] at h, Nat.le_refl _⟩
        simp only [emitOK, if_true, Bool.and_eq_true, decide_eq_true_eq] at hok ⊢
        exact ⟨⟨⟨⟨by omega, hok.1.1.1.2⟩, hok.1.1.2⟩, hok.1.2⟩, hok.2⟩
      | false =>
        simp only [emitOK, Bool.false_eq_true, if_false, Bool.and_eq_true,
          decide_eq_true_eq] at hok
        by_cases hb : binLevel op2.T = 4
        · have hguard : isMultiTop l = false := by
            have := hok.1.1.2
            rw [hb] at this
            simpa using this
          have hkl : nsize l ≤ k := by
            have := nsize_pos r
            simp only [nsize] at hk
            omega
          have hokl : emitOK cx l 4 = true := by rw [← hb]; exact hok.1.2
          have hokr : emitOK cx r 3 = true := by
            have := hok.2
            rw [hb] at this
            simpa using this
          obtain ⟨ihF, ihE, ihH, ihS, ihFin, ihSz⟩ := ih l hkl hokl
          have hfl : (spine4 l).2.2 = none := spine4_fin_none l hguard
          simp only [spine4, if_pos hb]
          refine ⟨?_, ?_, ihH, ?_, ?_, ?_⟩
          · rw [hfl] at ihF
            simp only [c4Fin] at ihF
            simp only [c4Fin, c4Fold_append, ihF, c4Fold]
          · rw [hfl] at ihE
            simp only [c4FinToks, List.append_nil] at ihE
            simp only [c4Toks_append, c4Toks, c4FinToks, List.append_nil]
            conv =>
              lhs
              rw [show emit (Node.binary op2 false l r) = emit l ++ op2 :: emit r
                from rfl]
            rw [ihE]
            simp [List.append_assoc]
          · intro st hst
            rcases List.mem_append.mp hst with h | h
            · refine c4StepOK_mono cx ?_ (ihS st h)
              simp only [nsize]; omega
            · rcases List.mem_singleton.mp h with rfl
              refine ⟨hb, hokr, ?_⟩
              simp only [nsize]; omega
          · intro op3 elems h
            exact absurd h (by simp)
          · refine Nat.le_trans ihSz ?_
            simp only [nsize]; omega
        · simp only [spine4, if_neg hb]
          refine ⟨rfl, by simp [c4Toks, c4FinToks], ?_,
            fun st hst => absurd hst (List.not_mem_nil st),
            fun op elems h => by simp at h, Nat.le_refl _⟩
          simp only [emitOK, Bool.false_eq_true, if_false, Bool.and_eq_true,
            decide_eq_true_eq]
          have hle : binLevel op2.T ≤ 4 := hok.1.1.1.1
          exact ⟨⟨⟨⟨by omega, hok.1.1.1.2⟩, hok.1.1.2⟩, hok.1.2⟩, hok.2⟩

/-! ### Loop lemmas: each grammar loop consumes exactly a chain -/

/-- The M loop returns at a level-2 stopper. -/
theorem mLoop_stop (cx : ParseCtx) (g : Nat) (m : Node) (ts : List Token)
    (hstop : stopAt 2 (curTok ts) = true) :
    parse cx (g + 1) (.rMLoop m) ts = .ok (m, ts) := by
  cases hq : (curTok ts).T <;> simp [stopAt, contAt, binLevel, hq] at hstop <;>
    simp [parse, parseStep, hq]

/-- The P loop returns at a level-3 stopper. -/
theorem pLoop_stop (cx : ParseCtx) (g : Nat) (m : Node) (ts : List Token)
    (hstop : stopAt 3 (curTok ts) = true) :
    parse cx (g + 1) (.rPLoop m) ts = .ok (m, ts) := by
  cases hq : (curTok ts).T <;> simp [stopAt, contAt, binLevel, hq] at hstop <;>
    simp [parse, parseStep, hq]

/-- The C loop returns at a level-4 stopper. -/
theorem cLoop_stopAt (cx : ParseCtx) (g : Nat) (m : Node) (ts : List Token)
    (hstop : stopAt 4 (curTok ts) = true) :
    parse cx (g + 1) (.rCLoop m) ts = .ok (m, ts) := by
  cases hq : (curTok ts).T <;> simp [stopAt, contAt, binLevel, hq] at hstop <;>
    simp [parse, parseStep, hq]

/-- The A loop returns at a level-5 stopper. -/
theorem aLoop_stop (cx : ParseCtx) (g : Nat) (m : Node) (ts : List Token)
    (hstop : stopAt 5 (curTok ts) = true) :
    parse cx (g + 1) (.rALoop m) ts = .ok (m, ts) := by
  cases hq : (curTok ts).T <;> simp [stopAt, contAt, binLevel, hq] at hstop <;>
    simp [parse, parseStep, hq]

/-- The O loop returns at a level-6 stopper. -/
theorem oLoop_stop (cx : ParseCtx) (g : Nat) (m : Node) (ts : List Token)
    (hstop : stopAt 6 (curTok ts) = true) :
    parse cx (g + 1) (.rOLoop m) ts = .ok (m, ts) := by
  cases hq : (curTok ts).T <;> simp [stopAt, contAt, binLevel, hq] at hstop <;>
    simp [parse, parseStep, hq]

/-- The head of a chain followed by a stopper stops one level down. -/
theorem chainHead_stop (lvl : Nat) (ch : List (Token × Node))
    (rest : List Token) (hch : ∀ pr ∈ ch, binLevel pr.1.T = lvl)
    (hrest : stopAt lvl (curTok rest) = true) (h2 : 2 ≤ lvl) :
    stopAt (lvl - 1) (curTok (chainToks ch ++ rest)) = true := by
  cases ch with
  | nil => exact stopAt_le (Nat.sub_le lvl 1) _ hrest
  | cons pr ch2 =>
    obtain ⟨op, m⟩ := pr
    have hb := hch (op, m) (List.mem_cons_self _ _)
    have hs := stop_pred_bin op (by rw [hb]; exact h2)
    rw [hb] at hs
    simpa [chainToks, curTok, List.cons_append] using hs

/-- The head of a C chain (or trailing IN, or the rest) stops at level 3. -/
theorem c4Head_stop (steps : List C4Step)
    (fin : Option (Token × List Node)) (rest : List Token)
    (hsteps : ∀ st ∈ steps,
      (∀ op m, st = C4Step.sBin op m → binLevel op.T = 4) ∧
      (∀ op b c, st = C4Step.sBtw op b c → op.T = .tBetween))
    (hfin : ∀ op elems, fin = some (op, elems) → op.T = .tIN)
    (hrest : stopAt 4 (curTok rest) = true) :
    stopAt 3 (curTok (c4Toks steps ++ c4FinToks fin ++ rest)) = true := by
  cases steps with
  | nil =>
    cases fin with
    | none =>
      simp only [c4Toks, c4FinToks, List.nil_append]
      exact stopAt_le (by decide) _ hrest
    | some pr =>
      obtain ⟨op, elems⟩ := pr
      have := hfin op elems rfl
      rcases op with ⟨tt, v, p⟩
      simp only [Token.T] at this
      subst this
      simpa [c4Toks, c4FinToks, curTok, List.cons_append] using stop3_in v p
  | cons st steps2 =>
    cases st with
    | sBin op m =>
      have hb := (hsteps _ (List.mem_cons_self _ _)).1 op m rfl
      have hs := stop_pred_bin op (by rw [hb]; decide)
      rw [hb] at hs
      simpa [c4Toks, curTok, List.cons_append] using hs
    | sBtw op b c =>
      have hb := (hsteps _ (List.mem_cons_self _ _)).2 op b c rfl
      rcases op with ⟨tt, v, p⟩
      simp only [Token.T] at hb
      subst hb
      simpa [c4Toks, curTok, List.cons_append] using stop3_btw v p

/-- The M loop consumes a level-2 chain and left-folds it into binaries. -/
theorem mChain_emit (cx : ParseCtx) (ch : List (Token × Node))
    (hch : ∀ pr ∈ ch, binLevel pr.1.T = 2)
    (horacle : ∀ pr ∈ ch, ∀ rest2 : List Token,
      stopAt 1 (curTok rest2) = true →
      ∃ f, parse cx f .rF (emit pr.2 ++ rest2) = .ok (pr.2, rest2)) :
    ∀ (acc : Node) (rest : List Token), stopAt 2 (curTok rest) = true →
    ∃ f, parse cx f (.rMLoop acc) (chainToks ch ++ rest) =
      .ok (List.foldl (fun a pr => Node.binary pr.1 false a pr.2) acc ch,
        rest) := by
  induction ch with
  | nil =>
    intro acc rest hstop
    exact ⟨1, mLoop_stop cx 0 acc rest hstop⟩
  | cons pr ch ih =>
    obtain ⟨op, m⟩ := pr
    intro acc rest hstop
    have h2 := hch (op, m) (List.mem_cons_self _ _)
    obtain ⟨f1, hf1⟩ := horacle (op, m) (List.mem_cons_self _ _)
      (chainToks ch ++ rest) (stopAt_one _)
    obtain ⟨f2, hf2⟩ := ih (fun pr h => hch pr (List.mem_cons_of_mem _ h))
      (fun pr h => horacle pr (List.mem_cons_of_mem _ h))
      (.binary op false acc m) rest hstop
    refine ⟨max f1 f2 + 1, ?_⟩
    have hf1m : parse cx (max f1 f2) .rF (emit m ++ (chainToks ch ++ rest)) =
        .ok (m, chainToks ch ++ rest) :=
      parse_mono_le cx (Nat.le_max_left f1 f2) _ _ _ hf1
    have hf2m := parse_mono_le cx (Nat.le_max_right f1 f2) _ _ _ hf2
    simp only [chainToks, List.cons_append, List.append_assoc]
    obtain ⟨tt, v, p⟩ := op
    simp only [Token.T] at h2
    rcases binLevel2_cases tt h2 with rfl | rfl | rfl | rfl <;>
      (simp only [parse, parseStep, curTok, nextTs, List.headD, List.tail];
       rw [hf1m, exceptBind_ok];
       exact hf2m)

/-- The P loop consumes a level-3 chain and left-folds it into binaries. -/
theorem pChain_emit (cx : ParseCtx) (ch : List (Token × Node))
    (hch : ∀ pr ∈ ch, binLevel pr.1.T = 3)
    (horacle : ∀ pr ∈ ch, ∀ rest2 : List Token,
      stopAt 2 (curTok rest2) = true →
      ∃ f, parse cx f .rM (emit pr.2 ++ rest2) = .ok (pr.2, rest2)) :
    ∀ (acc : Node) (rest : List Token), stopAt 3 (curTok rest) = true →
    ∃ f, parse cx f (.rPLoop acc) (chainToks ch ++ rest) =
      .ok (List.foldl (fun a pr => Node.binary pr.1 false a pr.2) acc ch,
        rest) := by
  induction ch with
  | nil =>
    intro acc rest hstop
    exact ⟨1, pLoop_stop cx 0 acc rest hstop⟩
  | cons pr ch ih =>
    obtain ⟨op, m⟩ := pr
    intro acc rest hstop
    have h2 := hch (op, m) (List.mem_cons_self _ _)
    have hstop2 : stopAt 2 (curTok (chainToks ch ++ rest)) = true :=
      chainHead_stop 3 ch rest (fun pr h => hch pr (List.mem_cons_of_mem _ h))
        hstop (by decide)
    obtain ⟨f1, hf1⟩ := horacle (op, m) (List.mem_cons_self _ _)
      (chainToks ch ++ rest) hstop2
    obtain ⟨f2, hf2⟩ := ih (fun pr h => hch pr (List.mem_cons_of_mem _ h))
      (fun pr h => horacle pr (List.mem_cons_of_mem _ h))
      (.binary op false acc m) rest hstop
    refine ⟨max f1 f2 + 1, ?_⟩
    have hf1m : parse cx (max f1 f2) .rM (emit m ++ (chainToks ch ++ rest)) =
        .ok (m, chainToks ch ++ rest) :=
      parse_mono_le cx (Nat.le_max_left f1 f2) _ _ _ hf1
    have hf2m := parse_mono_le cx (Nat.le_max_right f1 f2) _ _ _ hf2
    simp only [chainToks, List.cons_append, List.append_assoc]
    obtain ⟨tt, v, p⟩ := op
    simp only [Token.T] at h2
    rcases binLevel3_cases tt h2 with rfl | rfl <;>
      (simp only [parse, parseStep, curTok, nextTs, List.headD, List.tail];
       rw [hf1m, exceptBind_ok];
       exact hf2m)

/-- The A loop consumes a level-5 chain and left-folds it into binaries. -/
theorem aChain_emit (cx : ParseCtx) (ch : List (Token × Node))
    (hch : ∀ pr ∈ ch, binLevel pr.1.T = 5)
    (horacle : ∀ pr ∈ ch, ∀ rest2 : List Token,
      stopAt 4 (curTok rest2) = true →
      ∃ f, parse cx f .rC (emit pr.2 ++ rest2) = .ok (pr.2, rest2)) :
    ∀ (acc : Node) (rest : List Token), stopAt 5 (curTok rest) = true →
    ∃ f, parse cx f (.rALoop acc) (chainToks ch ++ rest) =
      .ok (List.foldl (fun a pr => Node.binary pr.1 false a pr.2) acc ch,
        rest) := by
  induction ch with
  | nil =>
    intro acc rest hstop
    exact ⟨1, aLoop_stop cx 0 acc rest hstop⟩
  | cons pr ch ih =>
    obtain ⟨op, m⟩ := pr
    intro acc rest hstop
    have h2 := hch (op, m) (List.mem_cons_self _ _)
    have hstop2 : stopAt 4 (curTok (chainToks ch ++ rest)) = true :=
      chainHead_stop 5 ch rest (fun pr h => hch pr (List.mem_cons_of_mem _ h))
        hstop (by decide)
    obtain ⟨f1, hf1⟩ := horacle (op, m) (List.mem_cons_self _ _)
      (chainToks ch ++ rest) hstop2
    obtain ⟨f2, hf2⟩ := ih (fun pr h => hch pr (List.mem_cons_of_mem _ h))
      (fun pr h => horacle pr (List.mem_cons_of_mem _ h))
      (.binary op false acc m) rest hstop
    refine ⟨max f1 f2 + 1, ?_⟩
    have hf1m : parse cx (max f1 f2) .rC (emit m ++ (chainToks ch ++ rest)) =
        .ok (m, chainToks ch ++ rest) :=
      parse_mono_le cx (Nat.le_max_left f1 f2) _ _ _ hf1
    have hf2m := parse_mono_le cx (Nat.le_max_right f1 f2) _ _ _ hf2
    simp only [chainToks, List.cons_append, List.append_assoc]
    obtain ⟨tt, v, p⟩ := op
    simp only [Token.T] at h2
    rcases binLevel5_cases tt h2 with rfl | rfl <;>
      (simp only [parse, parseStep, curTok, nextTs, List.headD, List.tail];
       rw [hf1m, exceptBind_ok];
       exact hf2m)

/-- The O loop consumes a level-6 chain and left-folds it into binaries. -/
theorem oChain_emit (cx : ParseCtx) (ch : List (Token × Node))
    (hch : ∀ pr ∈ ch, binLevel pr.1.T = 6)
    (horacle : ∀ pr ∈ ch, ∀ rest2 : List Token,
      stopAt 5 (curTok rest2) = true →
      ∃ f, parse cx f .rA (emit pr.2 ++ rest2) = .ok (pr.2, rest2)) :
    ∀ (acc : Node) (rest : List Token), stopAt 6 (curTok rest) = true →
    ∃ f, parse cx f (.rOLoop acc) (chainToks ch ++ rest) =
      .ok (List.foldl (fun a pr => Node.binary pr.1 false a pr.2) acc ch,
        rest) := by
  induction ch with
  | nil =>
    intro acc rest hstop
    exact ⟨1, oLoop_stop cx 0 acc rest hstop⟩
  | cons pr ch ih =>
    obtain ⟨op, m⟩ := pr
    intro acc rest hstop
    have h2 := hch (op, m) (List.mem_cons_self _ _)
    have hstop2 : stopAt 5 (curTok (chainToks ch ++ rest)) = true :=
      chainHead_stop 6 ch rest (fun pr h => hch pr (List.mem_cons_of_mem _ h))
        hstop (by decide)
    obtain ⟨f1, hf1⟩ := horacle (op, m) (List.mem_cons_self _ _)
      (chainToks ch ++ rest) hstop2
    obtain ⟨f2, hf2⟩ := ih (fun pr h => hch pr (List.mem_cons_of_mem _ h))
      (fun pr h => horacle pr (List.mem_cons_of_mem _ h))
      (.binary op false acc m) rest hstop
    refine ⟨max f1 f2 + 1, ?_⟩
    have hf1m : parse cx (max f1 f2) .rA (emit m ++ (chainToks ch ++ rest)) =
        .ok (m, chainToks ch ++ rest) :=
      parse_mono_le cx (Nat.le_max_left f1 f2) _ _ _ hf1
    have hf2m := parse_mono_le cx (Nat.le_max_right f1 f2) _ _ _ hf2
    simp only [chainToks, List.cons_append, List.append_assoc]
    obtain ⟨tt, v, p⟩ := op
    simp only [Token.T] at h2
    rcases binLevel6_cases tt h2 with rfl | rfl <;>
      (simp only [parse, parseStep, curTok, nextTs, List.headD, List.tail];
       rw [hf1m, exceptBind_ok];
       exact hf2m)

/-- Folding `appendArg` into a `MultiArg` appends to its argument list. -/
theorem multiFold (op : Token) : ∀ (elems pre : List Node),
    List.foldl Node.appendArg (.multiArg op pre) elems =
      .multiArg op (pre ++ elems) := by
  intro elems
  induction elems with
  | nil => intro pre; simp
  | cons a elems ih =>
    intro pre
    simp only [List.foldl, Node.appendArg, ih, List.append_assoc,
      List.singleton_append]

/-- Folding `appendArg` into a `FuncNode` appends to its argument list. -/
theorem funcFold (pos : Nat) (nm : String) (impl : Func) :
    ∀ (elems pre : List Node),
    List.foldl Node.appendArg (.funcNode pos nm impl pre) elems =
      .funcNode pos nm impl (pre ++ elems) := by
  intro elems
  induction elems with
  | nil => intro pre; simp
  | cons a elems ih =>
    intro pre
    simp only [List.foldl, Node.appendArg, ih, List.append_assoc,
      List.singleton_append]

/-- The MultiArg loop skips a comma. -/
theorem multiLoop_comma (cx : ParseCtx) (g : Nat) (acc : Node)
    (S : List Token) :
    parse cx (g + 1) (.rMultiArgLoop acc) (commaTok :: S) =
      parse cx g (.rMultiArgLoop acc) S := by
  simp [parse, parseStep, curTok, nextTs, commaTok]

/-- The MultiArg loop returns at a right paren, consuming it. -/
theorem multiLoop_rparen (cx : ParseCtx) (g : Nat) (acc : Node)
    (rest : List Token) :
    parse cx (g + 1) (.rMultiArgLoop acc) (rparenTok :: rest) =
      .ok (acc, rest) := by
  simp [parse, parseStep, curTok, nextTs, rparenTok]

/-- The MultiArg loop falls to the element-parsing branch at any safe head. -/
theorem multiLoop_default (cx : ParseCtx) (g : Nat) (acc : Node) (t : Token)
    (S : List Token) (hsafe : safeHead t.T = true) :
    parse cx (g + 1) (.rMultiArgLoop acc) (t :: S) =
      (parse cx g .rO (t :: S)).bind (fun p =>
        parse cx g (.rMultiArgLoop (acc.appendArg p.1)) p.2) := by
  obtain ⟨tt, v, p⟩ := t
  simp only [Token.T] at hsafe
  rcases safeHead_cases tt hsafe with rfl | rfl | rfl | rfl | rfl | rfl | rfl <;>
    simp [parse, parseStep, curTok, nextTs]

/-- The MultiArg loop consumes a comma-separated emission of elements up to
the closing paren and appends each element in order. -/
theorem multiLoop_emit (cx : ParseCtx) : ∀ (elems : List Node),
    emitOKList cx elems = true →
    (∀ a ∈ elems, ∀ rest2 : List Token, stopAt 6 (curTok rest2) = true →
      ∃ f, parse cx f .rO (emit a ++ rest2) = .ok (a, rest2)) →
    ∀ (acc : Node) (rest : List Token),
    ∃ f, parse cx f (.rMultiArgLoop acc)
        (emitArgs elems ++ [rparenTok] ++ rest) =
      .ok (List.foldl Node.appendArg acc elems, rest) := by
  intro elems
  induction elems with
  | nil =>
    intro _ _ acc rest
    exact ⟨1, multiLoop_rparen cx 0 acc rest⟩
  | cons a elems ih =>
    intro hok horacle acc rest
    simp only [emitOKList, Bool.and_eq_true] at hok
    obtain ⟨t, ts2, hemit, hsafe⟩ :=
      emit_head cx (nsize a) a 6 (Nat.le_refl _) hok.1
    cases elems with
    | nil =>
      obtain ⟨f1, hf1⟩ := horacle a (List.mem_cons_self _ _)
        (rparenTok :: rest) stop6_rparen
      refine ⟨f1 + 1 + 1, ?_⟩
      have hf1m : parse cx (f1 + 1) .rO (emit a ++ (rparenTok :: rest)) =
          .ok (a, rparenTok :: rest) :=
        parse_mono_le cx (Nat.le_succ f1) _ _ _ hf1
      rw [hemit] at hf1m
      rw [show emitArgs [a] = emit a from rfl, hemit]
      simp only [List.cons_append, List.append_assoc, List.nil_append,
        List.singleton_append] at hf1m ⊢
      rw [multiLoop_default cx (f1 + 1) acc t _ hsafe, hf1m, exceptBind_ok,
        multiLoop_rparen]
      rfl
    | cons b elems2 =>
      obtain ⟨f1, hf1⟩ := horacle a (List.mem_cons_self _ _)
        (commaTok :: (emitArgs (b :: elems2) ++ [rparenTok] ++ rest))
        stop6_comma
      obtain ⟨f2, hf2⟩ := ih hok.2
        (fun e he => horacle e (List.mem_cons_of_mem _ he))
        (acc.appendArg a) rest
      refine ⟨f1 + f2 + 1 + 1, ?_⟩
      have hf1m : parse cx (f1 + f2 + 1) .rO
          (emit a ++ (commaTok :: (emitArgs (b :: elems2) ++ [rparenTok] ++ rest))) =
          .ok (a, commaTok :: (emitArgs (b :: elems2) ++ [rparenTok] ++ rest)) :=
        parse_mono_le cx (by omega) _ _ _ hf1
      have hf2m : parse cx (f1 + f2) (.rMultiArgLoop (acc.appendArg a))
          (emitArgs (b :: elems2) ++ [rparenTok] ++ rest) =
          .ok (List.foldl Node.appendArg (acc.appendArg a) (b :: elems2), rest) :=
        parse_mono_le cx (by omega) _ _ _ hf2
      rw [hemit] at hf1m
      rw [show emitArgs (a :: b :: elems2) =
        emit a ++ commaTok :: emitArgs (b :: elems2) from rfl, hemit]
      simp only [List.cons_append, List.append_assoc,
        List.singleton_append] at hf1m hf2m ⊢
      rw [multiLoop_default cx (f1 + f2 + 1) acc t _ hsafe, hf1m, exceptBind_ok,
        multiLoop_comma]
      exact hf2m

/-- The Func loop, entered on a delimiter, returns at an immediate right
paren. -/
theorem funcLoop_rparen (cx : ParseCtx) (g : Nat) (fn : Node) (dl : Token)
    (rest : List Token) :
    parse cx (g + 1) (.rFuncLoop fn) (dl :: rparenTok :: rest) =
      .ok (fn, rest) := by
  simp [parse, parseStep, curTok, nextTs, rparenTok]

/-- The Func loop, entered on a delimiter, falls to the argument-parsing
branch at any safe head. -/
theorem funcLoop_default (cx : ParseCtx) (g : Nat) (fn : Node) (dl t : Token)
    (S : List Token) (hsafe : safeHead t.T = true) :
    parse cx (g + 1) (.rFuncLoop fn) (dl :: t :: S) =
      (parse cx g .rO (t :: S)).bind (fun p =>
        match (curTok p.2).T with
        | .tComma => parse cx g (.rFuncLoop (fn.appendArg p.1)) p.2
        | .tRightParenthesis => .ok (fn.appendArg p.1, nextTs p.2)
        | .tEOF | .tEOS | .tFrom => .ok (fn.appendArg p.1, nextTs p.2)
        | .tEqual | .tEqualEqual | .tNE | .tGT | .tGE | .tLE | .tLT
        | .tStar | .tMultiply | .tDivide =>
          (parse cx g .rO p.2).bind (fun q =>
            parse cx g (.rFuncLoop (fn.appendArg q.1)) q.2)
        | _ => .error (unexpectedPanic (curTok p.2) "func")) := by
  obtain ⟨tt, v, p⟩ := t
  simp only [Token.T] at hsafe
  rcases safeHead_cases tt hsafe with rfl | rfl | rfl | rfl | rfl | rfl | rfl <;>
    simp [parse, parseStep, curTok, nextTs]

/-- The Func loop consumes its delimiter, then a comma-separated emission of
arguments up to the closing paren, appending each argument in order. -/
theorem funcLoop_emit (cx : ParseCtx) : ∀ (args : List Node),
    emitOKList cx args = true →
    (∀ a ∈ args, ∀ rest2 : List Token, stopAt 6 (curTok rest2) = true →
      ∃ f, parse cx f .rO (emit a ++ rest2) = .ok (a, rest2)) →
    ∀ (fn : Node) (dl : Token) (rest : List Token),
    ∃ f, parse cx f (.rFuncLoop fn)
        (dl :: (emitArgs args ++ [rparenTok] ++ rest)) =
      .ok (List.foldl Node.appendArg fn args, rest) := by
  intro args
  induction args with
  | nil =>
    intro _ _ fn dl rest
    exact ⟨1, funcLoop_rparen cx 0 fn dl rest⟩
  | cons a args ih =>
    intro hok horacle fn dl rest
    simp only [emitOKList, Bool.and_eq_true] at hok
    obtain ⟨t, ts2, hemit, hsafe⟩ :=
      emit_head cx (nsize a) a 6 (Nat.le_refl _) hok.1
    cases args with
    | nil =>
      obtain ⟨f1, hf1⟩ := horacle a (List.mem_cons_self _ _)
        (rparenTok :: rest) stop6_rparen
      refine ⟨f1 + 1, ?_⟩
      rw [hemit] at hf1
      rw [show emitArgs [a] = emit a from rfl, hemit]
      simp only [List.cons_append, List.append_assoc, List.nil_append,
        List.singleton_append] at hf1 ⊢
      rw [funcLoop_default cx f1 fn dl t _ hsafe, hf1, exceptBind_ok]
      rfl
    | cons b args2 =>
      obtain ⟨f1, hf1⟩ := horacle a (List.mem_cons_self _ _)
        (commaTok :: (emitArgs (b :: args2) ++ [rparenTok] ++ rest))
        stop6_comma
      obtain ⟨f2, hf2⟩ := ih hok.2
        (fun e he => horacle e (List.mem_cons_of_mem _ he))
        (fn.appendArg a) commaTok rest
      refine ⟨max f1 f2 + 1, ?_⟩
      have hf1m : parse cx (max f1 f2) .rO
          (emit a ++ (commaTok :: (emitArgs (b :: args2) ++ [rparenTok] ++ rest))) =
          .ok (a, commaTok :: (emitArgs (b :: args2) ++ [rparenTok] ++ rest)) :=
        parse_mono_le cx (Nat.le_max_left f1 f2) _ _ _ hf1
      have hf2m : parse cx (max f1 f2) (.rFuncLoop (fn.appendArg a))
          (commaTok :: (emitArgs (b :: args2) ++ [rparenTok] ++ rest)) =
          .ok (List.foldl Node.appendArg (fn.appendArg a) (b :: args2), rest) :=
        parse_mono_le cx (Nat.le_max_right f1 f2) _ _ _ hf2
      rw [hemit] at hf1m
      rw [show emitArgs (a :: b :: args2) =
        emit a ++ commaTok :: emitArgs (b :: args2) from rfl, hemit]
      simp only [List.cons_append, List.append_assoc,
        List.singleton_append] at hf1m hf2m ⊢
      rw [funcLoop_default cx (max f1 f2) fn dl t _ hsafe, hf1m, exceptBind_ok]
      exact hf2m

/-- The C loop consumes a chain of comparisons and BETWEENs and an optional
trailing IN, folding them left-associatively onto the accumulator. -/
theorem cChain_emit (cx : ParseCtx) : ∀ (steps : List C4Step)
    (fin : Option (Token × List Node)),
    (∀ st ∈ steps,
      (∀ op m, st = C4Step.sBin op m → binLevel op.T = 4) ∧
      (∀ op b c, st = C4Step.sBtw op b c → op.T = .tBetween)) →
    (∀ op elems, fin = some (op, elems) →
      op.T = .tIN ∧ emitOKList cx elems = true) →
    (∀ op m, C4Step.sBin op m ∈ steps → ∀ rest2 : List Token,
      stopAt 3 (curTok rest2) = true →
      ∃ f, parse cx f .rP (emit m ++ rest2) = .ok (m, rest2)) →
    (∀ op b c, C4Step.sBtw op b c ∈ steps → ∀ rest2 : List Token,
      stopAt 3 (curTok rest2) = true →
      ∃ f, parse cx f .rP (emit b ++ rest2) = .ok (b, rest2)) →
    (∀ op b c, C4Step.sBtw op b c ∈ steps → ∀ rest2 : List Token,
      stopAt 3 (curTok rest2) = true →
      ∃ f, parse cx f .rP (emit c ++ rest2) = .ok (c, rest2)) →
    (∀ op elems, fin = some (op, elems) → ∀ e ∈ elems,
      ∀ rest2 : List Token, stopAt 6 (curTok rest2) = true →
      ∃ f, parse cx f .rO (emit e ++ rest2) = .ok (e, rest2)) →
    ∀ (acc : Node) (rest : List Token), stopAt 4 (curTok rest) = true →
    ∃ f, parse cx f (.rCLoop acc) (c4Toks steps ++ c4FinToks fin ++ rest) =
      .ok (c4Fin (c4Fold acc steps) fin, rest) := by
  intro steps
  induction steps with
  | nil =>
    intro fin hsteps hfin horB horT1 horT2 horFin acc rest hstop
    cases fin with
    | none =>
      refine ⟨1, ?_⟩
      simp only [c4Toks, c4FinToks, List.nil_append]
      exact cLoop_stopAt cx 0 acc rest hstop
    | some pr =>
      obtain ⟨op, elems⟩ := pr
      obtain ⟨hIN, hOKel⟩ := hfin op elems rfl
      obtain ⟨fm, hfm⟩ := multiLoop_emit cx elems hOKel
        (horFin op elems rfl) (.multiArg op [acc]) rest
      rw [multiFold] at hfm
      refine ⟨fm + 1 + 1, ?_⟩
      obtain ⟨tt, v, p⟩ := op
      simp only [Token.T] at hIN
      subst hIN
      simp only [c4Toks, c4FinToks, List.nil_append, List.cons_append,
        List.append_assoc, List.singleton_append] at hfm ⊢
      simp only [parse, parseStep, curTok, nextTs, List.headD, List.tail,
        lparenTok, eq_self_iff_true, if_true]
      exact hfm
  | cons st steps2 ih =>
    intro fin hsteps hfin horB horT1 horT2 horFin acc rest hstop
    have hsteps2 : ∀ st ∈ steps2,
        (∀ op m, st = C4Step.sBin op m → binLevel op.T = 4) ∧
        (∀ op b c, st = C4Step.sBtw op b c → op.T = .tBetween) :=
      fun st h => hsteps st (List.mem_cons_of_mem _ h)
    have hstop3 : stopAt 3
        (curTok (c4Toks steps2 ++ c4FinToks fin ++ rest)) = true :=
      c4Head_stop steps2 fin rest hsteps2 (fun op e h => (hfin op e h).1) hstop
    cases st with
    | sBin op m =>
      have h4 := (hsteps _ (List.mem_cons_self _ _)).1 op m rfl
      obtain ⟨f1, hf1⟩ := horB op m (List.mem_cons_self _ _)
        (c4Toks steps2 ++ (c4FinToks fin ++ rest))
        (by simpa [List.append_assoc] using hstop3)
      obtain ⟨f2, hf2⟩ := ih fin hsteps2 hfin
        (fun op2 m2 h => horB op2 m2 (List.mem_cons_of_mem _ h))
        (fun op2 b2 c2 h => horT1 op2 b2 c2 (List.mem_cons_of_mem _ h))
        (fun op2 b2 c2 h => horT2 op2 b2 c2 (List.mem_cons_of_mem _ h))
        horFin (.binary op false acc m) rest hstop
      refine ⟨max f1 f2 + 1, ?_⟩
      have hf1m := parse_mono_le cx (Nat.le_max_left f1 f2) _ _ _ hf1
      have hf2m := parse_mono_le cx (Nat.le_max_right f1 f2) _ _ _ hf2
      simp only [List.append_assoc] at hf2m
      simp only [c4Toks, c4Fold, List.cons_append, List.append_assoc]
      obtain ⟨tt, v, p⟩ := op
      simp only [Token.T] at h4
      rcases binLevel4_cases tt h4 with
        rfl | rfl | rfl | rfl | rfl | rfl | rfl | rfl <;>
        (simp only [parse, parseStep, curTok, nextTs, List.headD, List.tail];
         rw [hf1m, exceptBind_ok];
         exact hf2m)
    | sBtw op b c =>
      have hbt := (hsteps _ (List.mem_cons_self _ _)).2 op b c rfl
      obtain ⟨f1, hf1⟩ := horT1 op b c (List.mem_cons_self _ _)
        (andTok :: (emit c ++ (c4Toks steps2 ++ (c4FinToks fin ++ rest))))
        (by simpa [curTok] using stopAt_le (by decide) andTok stop4_and)
      obtain ⟨f2, hf2⟩ := horT2 op b c (List.mem_cons_self _ _)
        (c4Toks steps2 ++ (c4FinToks fin ++ rest))
        (by simpa [List.append_assoc] using hstop3)
      obtain ⟨f3, hf3⟩ := ih fin hsteps2 hfin
        (fun op2 m2 h => horB op2 m2 (List.mem_cons_of_mem _ h))
        (fun op2 b2 c2 h => horT1 op2 b2 c2 (List.mem_cons_of_mem _ h))
        (fun op2 b2 c2 h => horT2 op2 b2 c2 (List.mem_cons_of_mem _ h))
        horFin (.tri op acc b c) rest hstop
      refine ⟨max f1 (max f2 f3) + 1, ?_⟩
      have hf1m := parse_mono_le cx (Nat.le_max_left f1 (max f2 f3)) _ _ _ hf1
      have hf2m := parse_mono_le cx
        (Nat.le_trans (Nat.le_max_left f2 f3) (Nat.le_max_right f1 _)) _ _ _ hf2
      have hf3m := parse_mono_le cx
        (Nat.le_trans (Nat.le_max_right f2 f3) (Nat.le_max_right f1 _)) _ _ _ hf3
      simp only [List.append_assoc] at hf3m
      simp only [c4Toks, c4Fold, List.cons_append, List.append_assoc]
      obtain ⟨tt, v, p⟩ := op
      simp only [Token.T] at hbt
      subst hbt
      show Except.bind (parse cx (max f1 (max f2 f3)) .rP
          (emit b ++ (andTok ::
            (emit c ++ (c4Toks steps2 ++ (c4FinToks fin ++ rest))))))
          (fun p2 =>
            if (curTok p2.2).T = TokenType.tLogicAnd then
              Except.bind (parse cx (max f1 (max f2 f3)) .rP (nextTs p2.2))
                (fun q => parse cx (max f1 (max f2 f3))
                  (.rCLoop (.tri ⟨TokenType.tBetween, v, p⟩ acc p2.1 q.1)) q.2)
            else .error (unexpectedPanic (curTok p2.2) "input")) =
        .ok (c4Fin
          (c4Fold (.tri ⟨TokenType.tBetween, v, p⟩ acc b c) steps2) fin, rest)
      rw [hf1m, exceptBind_ok]
      have hAnd : (curTok (andTok ::
          (emit c ++ (c4Toks steps2 ++ (c4FinToks fin ++ rest))))).T =
          TokenType.tLogicAnd := rfl
      rw [if_pos hAnd]
      show Except.bind (parse cx (max f1 (max f2 f3)) .rP
          (emit c ++ (c4Toks steps2 ++ (c4FinToks fin ++ rest))))
          (fun q => parse cx (max f1 (max f2 f3))
            (.rCLoop (.tri ⟨TokenType.tBetween, v, p⟩ acc b q.1)) q.2) = _
      rw [hf2m, exceptBind_ok]
      exact hf3m

/-- Every operator level is at most 6. -/
theorem binLevel_le6 (tt : TokenType) : binLevel tt ≤ 6 := by
  cases tt <;> decide

set_option maxHeartbeats 1000000 in
/-- The round-trip core: the emission of a round-trippable node at a level,
followed by a stopper for that level, parses back at that level to exactly
the original node, consuming exactly the emission. -/
theorem emit_roundtrip (cx : ParseCtx) : ∀ (k : Nat) (n : Node) (lvl : Nat)
    (rest : List Token), nsize n * 10 + lvl ≤ k → 1 ≤ lvl → lvl ≤ 6 →
    emitOK cx n lvl = true → stopAt lvl (curTok rest) = true →
    ∃ f, parse cx f (levelRule lvl) (emit n ++ rest) = .ok (n, rest) := by
  intro k
  induction k with
  | zero =>
    intro n lvl rest hk h1 _ _ _
    exact absurd hk (by omega)
  | succ k ih =>
    intro n lvl rest hk h1 h6 hok hstop
    interval_cases lvl
    -- level 1: F
    · simp only [levelRule]
      cases n with
      | number pos text =>
        simp only [emitOK, Bool.and_eq_true] at hok
        exact ⟨2, by simp [parse, parseStep, curTok, nextTs, emit, hok.2]⟩
      | str pos v =>
        exact ⟨2, by simp [parse, parseStep, curTok, nextTs, emit]⟩
      | identity pos v =>
        exact ⟨2, by simp [parse, parseStep, curTok, nextTs, emit]⟩
      | unary op c =>
        simp only [emitOK, Bool.and_eq_true, Bool.or_eq_true, beq_iff_eq]
          at hok
        obtain ⟨f1, hf1⟩ := ih c 1 rest
          (by simp only [nsize] at hk; omega) (by decide) (by decide)
          hok.2 (stopAt_one _)
        have hf1F : parse cx f1 .rF (emit c ++ rest) = .ok (c, rest) := hf1
        refine ⟨f1 + 1, ?_⟩
        obtain ⟨tt, v, p⟩ := op
        simp only [Token.T] at hok
        rcases hok.1.2 with rfl | rfl <;>
          (simp only [emit, List.cons_append];
           simp only [parse, parseStep, curTok, nextTs, List.headD, List.tail];
           rw [hf1F, exceptBind_ok])
      | binary op paren l r =>
        cases paren with
        | false =>
          simp only [emitOK, Bool.false_eq_true, if_false, Bool.and_eq_true,
            decide_eq_true_eq] at hok
          exact absurd (Nat.le_trans hok.1.1.1.2 hok.1.1.1.1) (by decide)
        | true =>
          simp only [emitOK, if_true, Bool.and_eq_true, decide_eq_true_eq]
            at hok
          have hok6 : emitOK cx (.binary op false l r) 6 = true := by
            simp only [emitOK, Bool.false_eq_true, if_false, Bool.and_eq_true,
              decide_eq_true_eq]
            exact ⟨⟨⟨⟨binLevel_le6 _, hok.1.1.1.2⟩, hok.1.1.2⟩, hok.1.2⟩, hok.2⟩
          obtain ⟨f1, hf1⟩ := ih (.binary op false l r) 6 (rparenTok :: rest)
            (by simp [nsize] at hk ⊢; omega) (by decide) (by decide)
            hok6 stop6_rparen
          have hf1O : parse cx f1 .rO
              (emit (Node.binary op false l r) ++ (rparenTok :: rest)) =
              .ok (Node.binary op false l r, rparenTok :: rest) := hf1
          refine ⟨f1 + 1, ?_⟩
          rw [show emit (Node.binary op true l r) =
            lparenTok :: (emit (Node.binary op false l r) ++ [rparenTok])
            from rfl]
          simp only [List.cons_append, List.append_assoc,
            List.singleton_append]
          show Except.bind (parse cx f1 .rO
              (emit (Node.binary op false l r) ++ (rparenTok :: rest)))
            (fun p2 =>
              if (curTok p2.2).T = TokenType.tRightParenthesis then
                .ok (setParen p2.1, nextTs p2.2)
              else .error (unexpectedPanic (curTok p2.2) "input")) =
            .ok (Node.binary op true l r, rest)
          rw [hf1O, exceptBind_ok]
          have hRp : (curTok (rparenTok :: rest)).T =
              TokenType.tRightParenthesis := rfl
          rw [if_pos hRp]
          rfl
      | tri op a b c =>
        simp only [emitOK, Bool.and_eq_true, decide_eq_true_eq] at hok
        exact absurd hok.1.1.1.1.1 (by decide)
      | multiArg op args =>
        cases args with
        | nil => exact absurd hok (by simp [emitOK])
        | cons first rest2 =>
          simp only [emitOK, Bool.and_eq_true, decide_eq_true_eq] at hok
          exact absurd hok.1.1.1.1 (by decide)
      | funcNode pos name impl args =>
        simp only [emitOK, Bool.and_eq_true] at hok
        have hargs := hok.2
        have horacle : ∀ a ∈ args, ∀ rest2 : List Token,
            stopAt 6 (curTok rest2) = true →
            ∃ f, parse cx f .rO (emit a ++ rest2) = .ok (a, rest2) := by
          intro a ha rest2 hs
          have hsz := nsizeList_mem ha
          exact ih a 6 rest2
            (by simp only [nsize] at hk; omega) (by decide) (by decide)
            (emitOKList_mem cx hargs ha) hs
        obtain ⟨fL, hL⟩ := funcLoop_emit cx args hargs horacle
          (.funcNode pos name impl []) lparenTok rest
        rw [funcFold] at hL
        simp only [List.nil_append, List.append_assoc,
          List.singleton_append] at hL
        have hres := hok.1.2
        have hfr : funcResolve cx ⟨.tUdfExpr, name, pos⟩ = .ok impl := by
          simp only [resolvesTo] at hres
          cases hget : getFunction cx.funcs name with
          | some v =>
            rw [hget] at hres
            simp only [decide_eq_true_eq] at hres
            subst hres
            simp [funcResolve, Token.V, hget]
          | none =>
            rw [hget] at hres
            simp only [Bool.and_eq_true, Bool.not_eq_eq_eq_not, Bool.not_true,
              decide_eq_true_eq] at hres
            obtain ⟨hrc, rfl⟩ := hres
            simp [funcResolve, Token.V, hget, hrc]
        refine ⟨fL + 3, ?_⟩
        simp only [emit, List.cons_append, List.append_assoc,
          List.singleton_append]
        show (match funcResolve cx ⟨.tUdfExpr, name, pos⟩ with
          | Except.error e => Except.error e
          | Except.ok funcImpl =>
            if (curTok (lparenTok :: (emitArgs args ++ rparenTok :: rest))).T =
                TokenType.tLeftParenthesis then
              parse cx fL
                (.rFuncLoop (.funcNode pos name funcImpl []))
                (lparenTok :: (emitArgs args ++ rparenTok :: rest))
            else Except.error (unexpectedPanic
              (curTok (lparenTok :: (emitArgs args ++ rparenTok :: rest)))
              "func")) =
          Except.ok (Node.funcNode pos name impl args, rest)
        rw [hfr]
        show parse cx fL (.rFuncLoop (.funcNode pos name impl []))
            (lparenTok :: (emitArgs args ++ rparenTok :: rest)) =
          .ok (Node.funcNode pos name impl args, rest)
        exact hL
    -- level 2: M
    · simp only [levelRule]
      obtain ⟨hH, hM⟩ := spineB_ok cx 2 (Or.inl rfl) (nsize n) n
        (Nat.le_refl _) hok
      have hsz := spineB_size 2 (nsize n) n (Nat.le_refl _)
      obtain ⟨f0, hf0⟩ := ih (spineB 2 n).1 1 (chainToks (spineB 2 n).2 ++ rest)
        (by have := hsz.1; omega) (by decide) (by decide) hH
        (chainHead_stop 2 _ rest (fun pr h => (hM pr h).1) hstop (by decide))
      obtain ⟨fc, hfc⟩ := mChain_emit cx (spineB 2 n).2
        (fun pr h => (hM pr h).1)
        (fun pr hpr rest2 hs => ih pr.2 1 rest2
          (by have := hsz.2 pr hpr; omega) (by decide) (by decide)
          (hM pr hpr).2 hs)
        (spineB 2 n).1 rest hstop
      rw [spineB_fold 2 (nsize n) n (Nat.le_refl _)] at hfc
      refine ⟨max f0 fc + 1, ?_⟩
      have hf0m : parse cx (max f0 fc) .rF
          (emit (spineB 2 n).1 ++ (chainToks (spineB 2 n).2 ++ rest)) =
          .ok ((spineB 2 n).1, chainToks (spineB 2 n).2 ++ rest) :=
        parse_mono_le cx (Nat.le_max_left f0 fc) _ _ _ hf0
      have hfcm := parse_mono_le cx (Nat.le_max_right f0 fc) _ _ _ hfc
      rw [spineB_emit 2 (nsize n) n (Nat.le_refl _)]
      simp only [List.append_assoc]
      show Except.bind (parse cx (max f0 fc) .rF
          (emit (spineB 2 n).1 ++ (chainToks (spineB 2 n).2 ++ rest)))
        (fun p2 => parse cx (max f0 fc) (.rMLoop p2.1) p2.2) = .ok (n, rest)
      rw [hf0m, exceptBind_ok]
      exact hfcm
    -- level 3: P
    · simp only [levelRule]
      obtain ⟨hH, hM⟩ := spineB_ok cx 3 (Or.inr (Or.inl rfl)) (nsize n) n
        (Nat.le_refl _) hok
      have hsz := spineB_size 3 (nsize n) n (Nat.le_refl _)
      obtain ⟨f0, hf0⟩ := ih (spineB 3 n).1 2 (chainToks (spineB 3 n).2 ++ rest)
        (by have := hsz.1; omega) (by decide) (by decide) hH
        (chainHead_stop 3 _ rest (fun pr h => (hM pr h).1) hstop (by decide))
      obtain ⟨fc, hfc⟩ := pChain_emit cx (spineB 3 n).2
        (fun pr h => (hM pr h).1)
        (fun pr hpr rest2 hs => ih pr.2 2 rest2
          (by have := hsz.2 pr hpr; omega) (by decide) (by decide)
          (hM pr hpr).2 hs)
        (spineB 3 n).1 rest hstop
      rw [spineB_fold 3 (nsize n) n (Nat.le_refl _)] at hfc
      refine ⟨max f0 fc + 1, ?_⟩
      have hf0m : parse cx (max f0 fc) .rM
          (emit (spineB 3 n).1 ++ (chainToks (spineB 3 n).2 ++ rest)) =
          .ok ((spineB 3 n).1, chainToks (spineB 3 n).2 ++ rest) :=
        parse_mono_le cx (Nat.le_max_left f0 fc) _ _ _ hf0
      have hfcm := parse_mono_le cx (Nat.le_max_right f0 fc) _ _ _ hfc
      rw [spineB_emit 3 (nsize n) n (Nat.le_refl _)]
      simp only [List.append_assoc]
      show Except.bind (parse cx (max f0 fc) .rM
          (emit (spineB 3 n).1 ++ (chainToks (spineB 3 n).2 ++ rest)))
        (fun p2 => parse cx (max f0 fc) (.rPLoop p2.1) p2.2) = .ok (n, rest)
      rw [hf0m, exceptBind_ok]
      exact hfcm
    -- level 4: C
    · simp only [levelRule]
      obtain ⟨hF, hE, hH, hS, hFin, hSz⟩ := spine4_all cx (nsize n) n
        (Nat.le_refl _) hok
      have hstepsProp : ∀ st ∈ (spine4 n).2.1,
          (∀ op m, st = C4Step.sBin op m → binLevel op.T = 4) ∧
          (∀ op b c, st = C4Step.sBtw op b c → op.T = .tBetween) := by
        intro st h
        refine ⟨?_, ?_⟩
        · intro op m he
          subst he
          exact (hS _ h).1
        · intro op b c he
          subst he
          exact (hS _ h).1
      have hfinProp : ∀ op elems, (spine4 n).2.2 = some (op, elems) →
          op.T = .tIN ∧ emitOKList cx elems = true :=
        fun op elems he => ⟨(hFin op elems he).1, (hFin op elems he).2.1⟩
      obtain ⟨f0, hf0⟩ := ih (spine4 n).1 3
        (c4Toks (spine4 n).2.1 ++ (c4FinToks (spine4 n).2.2 ++ rest))
        (by omega) (by decide) (by decide) hH
        (by
          have := c4Head_stop (spine4 n).2.1 (spine4 n).2.2 rest
            hstepsProp (fun op e h => (hfinProp op e h).1) hstop
          simpa [List.append_assoc] using this)
      obtain ⟨fc, hfc⟩ := cChain_emit cx (spine4 n).2.1 (spine4 n).2.2
        hstepsProp hfinProp
        (fun op m h rest2 hs => ih m 3 rest2
          (by have := (hS _ h).2.2; omega) (by decide) (by decide)
          (hS _ h).2.1 hs)
        (fun op b c h rest2 hs => ih b 3 rest2
          (by have := (hS _ h).2.2.2.1; omega) (by decide) (by decide)
          (hS _ h).2.1 hs)
        (fun op b c h rest2 hs => ih c 3 rest2
          (by have := (hS _ h).2.2.2.2; omega) (by decide) (by decide)
          (hS _ h).2.2.1 hs)
        (fun op elems he e hee rest2 hs => ih e 6 rest2
          (by have := (hFin op elems he).2.2 e hee; omega)
          (by decide) (by decide)
          (emitOKList_mem cx (hFin op elems he).2.1 hee) hs)
        (spine4 n).1 rest hstop
      rw [hF] at hfc
      refine ⟨max f0 fc + 1, ?_⟩
      have hf0m : parse cx (max f0 fc) .rP
          (emit (spine4 n).1 ++
            (c4Toks (spine4 n).2.1 ++ (c4FinToks (spine4 n).2.2 ++ rest))) =
          .ok ((spine4 n).1,
            c4Toks (spine4 n).2.1 ++ (c4FinToks (spine4 n).2.2 ++ rest)) :=
        parse_mono_le cx (Nat.le_max_left f0 fc) _ _ _ hf0
      have hfcm := parse_mono_le cx (Nat.le_max_right f0 fc) _ _ _ hfc
      simp only [List.append_assoc] at hfcm
      rw [hE]
      simp only [List.append_assoc]
      show Except.bind (parse cx (max f0 fc) .rP
          (emit (spine4 n).1 ++
            (c4Toks (spine4 n).2.1 ++ (c4FinToks (spine4 n).2.2 ++ rest))))
        (fun p2 => parse cx (max f0 fc) (.rCLoop p2.1) p2.2) = .ok (n, rest)
      rw [hf0m, exceptBind_ok]
      exact hfcm
    -- level 5: A
    · simp only [levelRule]
      obtain ⟨hH, hM⟩ := spineB_ok cx 5 (Or.inr (Or.inr (Or.inl rfl)))
        (nsize n) n (Nat.le_refl _) hok
      have hsz := spineB_size 5 (nsize n) n (Nat.le_refl _)
      obtain ⟨f0, hf0⟩ := ih (spineB 5 n).1 4 (chainToks (spineB 5 n).2 ++ rest)
        (by have := hsz.1; omega) (by decide) (by decide) hH
        (chainHead_stop 5 _ rest (fun pr h => (hM pr h).1) hstop (by decide))
      obtain ⟨fc, hfc⟩ := aChain_emit cx (spineB 5 n).2
        (fun pr h => (hM pr h).1)
        (fun pr hpr rest2 hs => ih pr.2 4 rest2
          (by have := hsz.2 pr hpr; omega) (by decide) (by decide)
          (hM pr hpr).2 hs)
        (spineB 5 n).1 rest hstop
      rw [spineB_fold 5 (nsize n) n (Nat.le_refl _)] at hfc
      refine ⟨max f0 fc + 1, ?_⟩
      have hf0m : parse cx (max f0 fc) .rC
          (emit (spineB 5 n).1 ++ (chainToks (spineB 5 n).2 ++ rest)) =
          .ok ((spineB 5 n).1, chainToks (spineB 5 n).2 ++ rest) :=
        parse_mono_le cx (Nat.le_max_left f0 fc) _ _ _ hf0
      have hfcm := parse_mono_le cx (Nat.le_max_right f0 fc) _ _ _ hfc
      rw [spineB_emit 5 (nsize n) n (Nat.le_refl _)]
      simp only [List.append_assoc]
      show Except.bind (parse cx (max f0 fc) .rC
          (emit (spineB 5 n).1 ++ (chainToks (spineB 5 n).2 ++ rest)))
        (fun p2 => parse cx (max f0 fc) (.rALoop p2.1) p2.2) = .ok (n, rest)
      rw [hf0m, exceptBind_ok]
      exact hfcm
    -- level 6: O
    · simp only [levelRule]
      obtain ⟨hH, hM⟩ := spineB_ok cx 6 (Or.inr (Or.inr (Or.inr rfl)))
        (nsize n) n (Nat.le_refl _) hok
      have hsz := spineB_size 6 (nsize n) n (Nat.le_refl _)
      obtain ⟨f0, hf0⟩ := ih (spineB 6 n).1 5 (chainToks (spineB 6 n).2 ++ rest)
        (by have := hsz.1; omega) (by decide) (by decide) hH
        (chainHead_stop 6 _ rest (fun pr h => (hM pr h).1) hstop (by decide))
      obtain ⟨fc, hfc⟩ := oChain_emit cx (spineB 6 n).2
        (fun pr h => (hM pr h).1)
        (fun pr hpr rest2 hs => ih pr.2 5 rest2
          (by have := hsz.2 pr hpr; omega) (by decide) (by decide)
          (hM pr hpr).2 hs)
        (spineB 6 n).1 rest hstop
      rw [spineB_fold 6 (nsize n) n (Nat.le_refl _)] at hfc
      refine ⟨max f0 fc + 1, ?_⟩
      have hf0m : parse cx (max f0 fc) .rA
          (emit (spineB 6 n).1 ++ (chainToks (spineB 6 n).2 ++ rest)) =
          .ok ((spineB 6 n).1, chainToks (spineB 6 n).2 ++ rest) :=
        parse_mono_le cx (Nat.le_max_left f0 fc) _ _ _ hf0
      have hfcm := parse_mono_le cx (Nat.le_max_right f0 fc) _ _ _ hfc
      rw [spineB_emit 6 (nsize n) n (Nat.le_refl _)]
      simp only [List.append_assoc]
      show Except.bind (parse cx (max f0 fc) .rA
          (emit (spineB 6 n).1 ++ (chainToks (spineB 6 n).2 ++ rest)))
        (fun p2 => parse cx (max f0 fc) (.rOLoop p2.1) p2.2) = .ok (n, rest)
      rw [hf0m, exceptBind_ok]
      exact hfcm

/-- The token stream of the seed expression `a * ( b BETWEEN c AND d )`. -/
def c2Toks : List Token :=
  [⟨.tIdentity, "a", 0⟩, ⟨.tStar, "*", 2⟩, ⟨.tLeftParenthesis, "(", 4⟩,
   ⟨.tIdentity, "b", 6⟩, ⟨.tBetween, "BETWEEN", 8⟩, ⟨.tIdentity, "c", 16⟩,
   ⟨.tLogicAnd, "AND", 18⟩, ⟨.tIdentity, "d", 22⟩,
   ⟨.tRightParenthesis, ")", 24⟩, eofTok]

/-- The tree the parser builds for `a * ( b BETWEEN c AND d )`: the `Tri` is
the right operand of `*`, and no paren flag records the grouping (the flag
lives only on binary nodes). -/
def c2T1 : Node :=
  .binary ⟨.tStar, "*", 2⟩ false (.identity 0 "a")
    (.tri ⟨.tBetween, "BETWEEN", 8⟩ (.identity 6 "b") (.identity 16 "c")
      (.identity 22 "d"))

/-- The tree the re-emission of `c2T1` parses to: without the parens the
BETWEEN captures `a * b` as its first operand. -/
def c2T2 : Node :=
  .tri ⟨.tBetween, "BETWEEN", 8⟩
    (.binary ⟨.tStar, "*", 2⟩ false (.identity 0 "a") (.identity 6 "b"))
    (.identity 16 "c") (.identity 22 "d")

/-- A round-trippable seed tree for the amended round trip: the BETWEEN
`Tri` of `b BETWEEN c AND d` at top level. -/
def c2T3 : Node :=
  .tri ⟨.tBetween, "BETWEEN", 8⟩ (.identity 6 "b") (.identity 16 "c")
    (.identity 22 "d")

/-- C2 (counterexample): the round-trip claim fails on the syntactically
valid input `a * ( b BETWEEN c AND d )`.  It parses to `c2T1`, a `*`-binary
whose right operand is the parenthesised BETWEEN `Tri`; the paren flag
exists only on `*BinaryNode`, so the grouping of the `Tri` is not recorded,
the re-emission `a * b BETWEEN c AND d` drops the parens, and the re-parse
yields `c2T2`, the BETWEEN applied to `a * b` — a different tree. -/
theorem roundtrip_cex :
    parse ⟨[], true⟩ 30 .rO c2Toks = .ok (c2T1, [eofTok]) ∧
    parse ⟨[], true⟩ 30 .rO (emit c2T1 ++ [eofTok]) = .ok (c2T2, [eofTok]) ∧
    c2T1 ≠ c2T2 :=
  ⟨rfl, rfl, fun h => Node.noConfusion h⟩

/-- C2 (amended): the round trip does hold for every tree all of whose
parenthesised groups are binary nodes (the only nodes carrying the paren
flag) and whose function nodes resolve consistently with the registry —
captured by `emitOK` at the O level: the emission of such a tree, followed
by any all-level stopper, re-parses at the O level to exactly the original
tree, consuming exactly the emission. -/
theorem roundtrip_amended (cx : ParseCtx) (n : Node) (rest : List Token)
    (hok : emitOK cx n 6 = true) (hstop : stopAt 6 (curTok rest) = true) :
    ∃ f, parse cx f .rO (emit n ++ rest) = .ok (n, rest) :=
  emit_roundtrip cx (nsize n * 10 + 6) n 6 rest (Nat.le_refl _) (by decide)
    (by decide) hok hstop

/-- C2 (witness): the amended round trip applied to the concrete tree of
`b BETWEEN c AND d` under the empty registry in strict mode. -/
theorem roundtrip_amended_witness :
    emitOK ⟨[], true⟩ c2T3 6 = true ∧
    stopAt 6 (curTok [eofTok]) = true ∧
    ∃ f, parse ⟨[], true⟩ f .rO (emit c2T3 ++ [eofTok]) =
      .ok (c2T3, [eofTok]) :=
  ⟨rfl, rfl, roundtrip_amended ⟨[], true⟩ c2T3 [eofTok] rfl rfl⟩

end QlBridge

